import Mathlib

set_option maxRecDepth 8000

/-!
Shallow embedding of the File Tree ("FT") implementation found in
`src/3FT/nodeFT.c`, `src/3FT/ft.c` and `src/3FT/checkerFT.c`, together with
proofs settling the specification claims about it.

Modelling conventions:
* The external `Path_T` component (out of scope of the repository sources,
  specified only at its interface) is modelled from the spec as the list of
  slash-separated segments of an absolute path.
* The external dynamic array is modelled as a Lean `List`; its binary search
  over a sorted array is modelled by the count of strictly smaller keys
  (the insertion index) plus a membership test, which is the documented
  contract of `DynArray_bsearch` on a sorted array.
* C in-place mutation of the tree is rendered functionally: operations that
  mutate a node buried in the tree return the rebuilt tree.  Traversal
  additionally returns the list of child indices it descended through, so
  that the caller can rebuild along the same route the C code mutates.
* Allocation failures (`malloc`, `Path_dup`, `Path_prefix`,
  `DynArray_addAt`) are driven by an explicit oracle argument; every C
  failure path frees its partial allocations and leaves observable state
  unchanged, so one oracle consultation per construction step is faithful.
* Parent back-pointers are structural in this embedding: a node's parent is
  the node owning it in the tree, so the checker's pointer-identity checks
  (`Node_getParent(child) == parent`) cannot fail here and are omitted.
-/

/-- Status codes returned by the FT operations (from `a4def.h` / the spec's
error taxonomy). -/
inductive FTStatus where
  | success
  | initializationError
  | badPath
  | conflictingPath
  | noSuchPath
  | notADirectory
  | alreadyInTree
  | memoryError
deriving DecidableEq, Repr

/-- Modelled from the spec: a path segment is valid when it is nonempty and
contains no slash. -/
def segOkB (s : String) : Bool := !s.data.isEmpty && s.data.all (fun c => c ≠ '/')

/-- Modelled from the spec: a parsed absolute path is a nonempty list of
valid segments; its depth is the number of segments. -/
def pathOkB (p : List String) : Bool := !p.isEmpty && p.all segOkB

/-- Character data of the canonical string rendering of a path: a leading
slash before every segment (the spec writes paths as `/a/b`). -/
def renderData : List String → List Char
  | [] => []
  | s :: rest => '/' :: (s.data ++ renderData rest)

/-- Modelled from the spec: `Path_getPathname`, the string rendering of a
path. -/
def render (p : List String) : String := ⟨renderData p⟩

/-- Split a character list at every slash. -/
def splitOnSlash (cs : List Char) : List (List Char) :=
  cs.foldr
    (fun c acc =>
      if c = '/' then [] :: acc
      else
        match acc with
        | h :: t => (c :: h) :: t
        | [] => [[c]])
    [[]]

/-- Modelled from the spec: `Path_new` parses an absolute slash-delimited
path string; malformed strings fail with `BAD_PATH`. -/
def Path_new (str : String) : Except FTStatus (List String) :=
  match splitOnSlash str.data with
  | [] :: rest =>
    let segs := rest.map (fun l => (⟨l⟩ : String))
    if !segs.isEmpty && segs.all segOkB then .ok segs else .error .badPath
  | _ => .error .badPath

/-- Modelled from the spec: `Path_getSharedPrefixDepth`, the number of
leading segments two paths share. -/
def sharedPrefixDepth : List String → List String → Nat
  | a :: as, b :: bs => if a = b then sharedPrefixDepth as bs + 1 else 0
  | _, _ => 0

/-- A node of the File Tree (`struct node` in `nodeFT.c`): absolute path,
file/directory discriminator, owned contents buffer with its length (files
only), and the ordered children collection (directories only; a file's
`oDChildren` is NULL, modelled as the empty list). -/
inductive Node where
  | mk (path : List String) (isFile : Bool) (contents : Option (List Nat))
       (len : Nat) (children : List Node)

/-- `Node_getPath`. -/
def Node.path : Node → List String
  | .mk p _ _ _ _ => p

/-- `Node_isFile`. -/
def Node.isFile : Node → Bool
  | .mk _ f _ _ _ => f

/-- The node's contents buffer (`pvContents`; `none` models NULL). -/
def Node.contents : Node → Option (List Nat)
  | .mk _ _ c _ _ => c

/-- The node's contents length (`ulLength`). -/
def Node.len : Node → Nat
  | .mk _ _ _ l _ => l

/-- The node's children collection (`oDChildren`). -/
def Node.children : Node → List Node
  | .mk _ _ _ _ ch => ch

/-- The children actually visible through `Node_getNumChildren` /
`Node_getChild`, which report none for file nodes. -/
def Node.effChildren (n : Node) : List Node :=
  if n.isFile then [] else n.children

/-- The sort key of a node: the rendered pathname, as compared by
`Node_compareString` / `Node_compare` (plain `strcmp` on pathnames). -/
def nodeKey (n : Node) : String := render n.path

/-- `Node_getNumChildren`: 0 for file nodes. -/
def Node_getNumChildren (n : Node) : Nat := (Node.effChildren n).length

/-- `Node_getChild`. -/
def Node_getChild (n : Node) (i : Nat) : Except FTStatus Node :=
  if n.isFile then .error .notADirectory
  else
    match n.children.get? i with
    | some c => .ok c
    | none => .error .noSuchPath

/-- The number of keys strictly below `key`: the insertion index that
`DynArray_bsearch` reports on a sorted array when `key` is absent, and the
index of the hit when it is present. -/
def lowerCountS (key : String) (ks : List String) : Nat :=
  ks.countP (fun k => decide (k < key))

/-- Whether some key of the array equals `key`. -/
def hasKeyS (key : String) (ks : List String) : Bool :=
  ks.any (fun k => k == key)

/-- `Node_hasChild`: binary search of `par`'s children by rendered pathname
(`Node_compareString`); returns the found flag and the (insertion) index.
Returns `(false, 0)` for file nodes. -/
def Node_hasChild (par : Node) (p : List String) : Bool × Nat :=
  if par.isFile then (false, 0)
  else
    (hasKeyS (render p) (par.children.map nodeKey),
     lowerCountS (render p) (par.children.map nodeKey))

/-- Insertion at an index (`DynArray_addAt`). -/
def insertAt {α : Type} : Nat → α → List α → List α
  | 0, x, l => x :: l
  | _ + 1, x, [] => [x]
  | n + 1, x, a :: l => a :: insertAt n x l

/-- `Node_addChild`: link a new child into the parent's children array at
the given index. -/
def Node_addChild : Node → Node → Nat → Node
  | .mk p f c l ch, child, idx => .mk p f c l (insertAt idx child ch)

/-- Result of `Node_new`: the returned status, `*poNResult`, the state of
the parent after the call (the C code mutates the parent in place on
success and only on success), and the index the child was linked at. -/
structure NodeNewResult where
  status : FTStatus
  result : Option Node
  parentAfter : Option Node
  insIdx : Nat

/-- `Node_new` from `nodeFT.c`.  `allocOk` is the allocation oracle: when
false, one of the allocations inside the call fails; every such C path
frees the partial node and returns `MEMORY_ERROR` with `*poNResult = NULL`
and the parent untouched.  The validation cascade and the stored
contents/length follow the source order exactly. -/
def Node_new (allocOk : Bool) (p : List String) (parent : Option Node)
    (isFile : Bool) (contents : Option (List Nat)) (len : Nat) : NodeNewResult :=
  if !allocOk then ⟨.memoryError, none, parent, 0⟩
  else
    let stored := if isFile then (if len > 0 && contents.isSome then contents else none) else none
    let slen := if isFile then len else 0
    let newNode := Node.mk p isFile stored slen []
    match parent with
    | some par =>
      if sharedPrefixDepth p par.path < par.path.length then
        ⟨.conflictingPath, none, parent, 0⟩
      else if p.length ≠ par.path.length + 1 then
        ⟨.noSuchPath, none, parent, 0⟩
      else if par.isFile then
        ⟨.notADirectory, none, parent, 0⟩
      else
        let hc := Node_hasChild par p
        if hc.1 then ⟨.alreadyInTree, none, parent, 0⟩
        else ⟨.success, some newNode, some (Node_addChild par newNode hc.2), hc.2⟩
    | none =>
      if p.length ≠ 1 then ⟨.noSuchPath, none, none, 0⟩
      else ⟨.success, some newNode, none, 0⟩

mutual
/-- `Node_free`: the number of nodes freed by recursively destroying the
subtree (children are recursed into for directories only; a file's
contents buffer is released with the node). -/
def Node_free : Node → Nat
  | .mk _ f _ _ ch => (if f then 0 else Node_freeList ch) + 1
/-- The recursive child-freeing loop of `Node_free`. -/
def Node_freeList : List Node → Nat
  | [] => 0
  | c :: cs => Node_free c + Node_freeList cs
end

mutual
/-- `DT_preOrderTraversal`: the nodes of the subtree in pre-order, children
visited in index order (via `Node_getNumChildren`/`Node_getChild`). -/
def DT_preOrder : Node → List Node
  | .mk p f c l ch => .mk p f c l ch :: (if f then [] else DT_preOrderList ch)
/-- The child loop of `DT_preOrderTraversal`. -/
def DT_preOrderList : List Node → List Node
  | [] => []
  | c :: cs => DT_preOrder c ++ DT_preOrderList cs
end

/-- The pre-order node list of an optional root. -/
def DT_preOrderOpt : Option Node → List Node
  | none => []
  | some r => DT_preOrder r

/-- The paths occurring in a subtree, in pre-order. -/
def Node.pathsOf (n : Node) : List (List String) :=
  (DT_preOrder n).map Node.path

/-- The File Tree state (`ft.c` static variables). -/
structure FT where
  initialized : Bool
  root : Option Node
  count : Nat

/-- The traversal loop of `FT_traversePath` (`for i = 2 .. ulDepth`),
rendered structurally on the list of remaining levels.  `route` accumulates
the child indices descended through. -/
def FT_goTraverse (p : List String) :
    List Nat → Node → List Nat → Except FTStatus (Node × List Nat)
  | [], curr, route => .ok (curr, route)
  | i :: rest, curr, route =>
    if curr.isFile then .error .notADirectory
    else
      match Node_hasChild curr (p.take i) with
      | (true, idx) =>
        match Node_getChild curr idx with
        | .ok child => FT_goTraverse p rest child (route ++ [idx])
        | .error st => .error st
      | (false, _) => .ok (curr, route)

/-- `FT_traversePath`: walk from the root as far as possible towards `p`.
Returns the furthest node reached with the route to it, `none` when the
root is NULL, `CONFLICTING_PATH` when the root's path is not the depth-1
prefix of `p`, and `NOT_A_DIRECTORY` when a file blocks the walk. -/
def FT_traversePath (root : Option Node) (p : List String) :
    Except FTStatus (Option (Node × List Nat)) :=
  match root with
  | none => .ok none
  | some r =>
    if render r.path ≠ render (p.take 1) then .error .conflictingPath
    else
      match FT_goTraverse p (List.range' 2 (p.length - 1)) r [] with
      | .ok res => .ok (some res)
      | .error st => .error st

/-- `FT_findNode`: resolve the exact node for a path string. -/
def FT_findNode (s : FT) (str : String) : Except FTStatus (Node × List Nat) :=
  if !s.initialized then .error .initializationError
  else
    match Path_new str with
    | .error st => .error st
    | .ok p =>
      match FT_traversePath s.root p with
      | .error st => .error st
      | .ok none => .error .noSuchPath
      | .ok (some (n, rt)) =>
        if render n.path ≠ render p then .error .noSuchPath else .ok (n, rt)

/-- Rebuild the tree after an in-place mutation of the node reached by
`route`: apply `f` to that node and splice the result back. -/
def Node.updAt : Node → List Nat → (Node → Node) → Node
  | n, [], f => f n
  | .mk p fl c l ch, i :: rt, f =>
    .mk p fl c l
      (match ch.get? i with
       | some child => ch.set i (Node.updAt child rt f)
       | none => ch)

/-- The node reached by descending a route of child indices. -/
def nodeAtRoute : Node → List Nat → Option Node
  | n, [] => some n
  | n, i :: rt =>
    match n.children.get? i with
    | some c => nodeAtRoute c rt
    | none => none

/-- Replace the child at an index (the in-place C mutation of an element of
the children array, seen functionally). -/
def Node.setChildAt : Node → Nat → Node → Node
  | .mk p f c l ch, i, x => .mk p f c l (ch.set i x)

/-- The chain-building loop shared by `FT_insertDir` and `FT_insertFile`
(`while (ulIndex <= ulDepth)`), rendered structurally on the list of
remaining levels.  Each successfully created node is linked into its parent
immediately (as `Node_new` does); on a failure the levels already linked
stay linked.  Returns the status, the updated subtree root the loop
started from, and `ulNewNodes`. -/
def FT_buildLoop (alloc : Nat → Bool) (p : List String) (depth : Nat)
    (isFileInsert : Bool) (contents : Option (List Nat)) (len : Nat) :
    List Nat → Node → FTStatus × Node × Nat
  | [], curr => (.success, curr, 0)
  | i :: rest, curr =>
    if curr.isFile then (.notADirectory, curr, 0)
    else
      let bIsFinal := isFileInsert && (i == depth)
      let r := Node_new (alloc i) (p.take i) (some curr) bIsFinal
                 (if bIsFinal then contents else none) (if bIsFinal then len else 0)
      match r.status, r.result, r.parentAfter with
      | .success, some newNode, some currAfter =>
        let res := FT_buildLoop alloc p depth isFileInsert contents len rest newNode
        (res.1, Node.setChildAt currAfter r.insIdx res.2.1, res.2.2 + 1)
      | st, _, _ => (st, curr, 0)

/-- `FT_insertDir`.  `alloc i` tells whether the allocations of level `i`
(`Path_prefix` and `Node_new`) succeed.  On a mid-chain failure the levels
already linked stay linked but `ulCount` is NOT updated, exactly as in the
source (the rollback of the original handout is commented out there).  On
full success from an empty tree the source sets `oNRoot = oNCurr`, the
DEEPEST newly created node. -/
def FT_insertDir (s : FT) (alloc : Nat → Bool) (str : String) : FTStatus × FT :=
  if !s.initialized then (.initializationError, s)
  else
    match Path_new str with
    | .error st => (st, s)
    | .ok p =>
      match FT_traversePath s.root p with
      | .error st => (st, s)
      | .ok none =>
        match s.root with
        | some _ => (.conflictingPath, s)
        | none =>
          let depth := p.length
          let r1 := Node_new (alloc 1) (p.take 1) none false none 0
          match r1.status, r1.result with
          | .success, some n1 =>
            let res := FT_buildLoop alloc p depth false none 0
                         (List.range' 2 (depth - 1)) n1
            if res.1 = .success then
              (.success, ⟨s.initialized, some (Node.mk (p.take depth) false none 0 []),
                          s.count + (res.2.2 + 1)⟩)
            else (res.1, s)
          | st, _ => (st, s)
      | .ok (some (anchor, route)) =>
        match s.root with
        | none => (.conflictingPath, s)
        | some rv =>
          let depth := p.length
          let startIdx := anchor.path.length + 1
          if startIdx == depth + 1 && render p == render anchor.path then
            (.alreadyInTree, s)
          else
            let res := FT_buildLoop alloc p depth false none 0
                         (List.range' startIdx (depth + 1 - startIdx)) anchor
            let root' := some (Node.updAt rv route (fun _ => res.2.1))
            if res.1 = .success then
              (.success, ⟨s.initialized, root', s.count + res.2.2⟩)
            else (res.1, ⟨s.initialized, root', s.count⟩)

/-- `FT_insertFile`: same traversal/extension algorithm; fails
`CONFLICTING_PATH` immediately when the root is NULL; the final level is a
file node carrying the contents.  The depth-1 guard
(`ulIndex == 1 && ulDepth == 1`) is kept although it is unreachable in the
source, since `ulIndex == 1` requires a NULL root, already rejected. -/
def FT_insertFile (s : FT) (alloc : Nat → Bool) (str : String)
    (contents : Option (List Nat)) (len : Nat) : FTStatus × FT :=
  if !s.initialized then (.initializationError, s)
  else
    match Path_new str with
    | .error st => (st, s)
    | .ok p =>
      match s.root with
      | none => (.conflictingPath, s)
      | some rv =>
        match FT_traversePath s.root p with
        | .error st => (st, s)
        | .ok none => (.conflictingPath, s)
        | .ok (some (anchor, route)) =>
          let depth := p.length
          let startIdx := anchor.path.length + 1
          if startIdx == depth + 1 && render p == render anchor.path then
            (.alreadyInTree, s)
          else if startIdx == 1 && depth == 1 then (.conflictingPath, s)
          else
            let res := FT_buildLoop alloc p depth true contents len
                         (List.range' startIdx (depth + 1 - startIdx)) anchor
            let root' := some (Node.updAt rv route (fun _ => res.2.1))
            if res.1 = .success then
              (.success, ⟨s.initialized, root', s.count + res.2.2⟩)
            else (res.1, ⟨s.initialized, root', s.count⟩)

/-- `FT_containsDir`: boolean probe, false on any error. -/
def FT_containsDir (s : FT) (str : String) : Bool :=
  match FT_findNode s str with
  | .error _ => false
  | .ok (n, _) => !n.isFile

/-- `FT_containsFile`: boolean probe, false on any error. -/
def FT_containsFile (s : FT) (str : String) : Bool :=
  match FT_findNode s str with
  | .error _ => false
  | .ok (n, _) => n.isFile

/-- The detach step of `Node_free`: the parent removes the child whose
pathname matches, located by binary search (`DynArray_bsearch` with
`Node_compare`), from its children array.  File parents are skipped. -/
def Node.detachChildKey : Node → String → Node
  | .mk p f c l ch, key =>
    if f then .mk p f c l ch
    else if hasKeyS key (ch.map nodeKey) then
      .mk p f c l (ch.eraseIdx (lowerCountS key (ch.map nodeKey)))
    else .mk p f c l ch

/-- `FT_rmDir`: resolve the node, `Node_free` its subtree, subtract the
freed count, and clear the root when the count reaches 0 (the source
leaves `oNRoot` dangling otherwise). -/
def FT_rmDir (s : FT) (str : String) : FTStatus × FT :=
  match FT_findNode s str with
  | .error st => (st, s)
  | .ok (nf, rt) =>
    match s.root with
    | none => (.success, s)
    | some rv =>
      let freed := Node_free nf
      let count' := s.count - freed
      let newRoot :=
        if rt.isEmpty then rv
        else Node.updAt rv rt.dropLast (fun par => par.detachChildKey (render nf.path))
      (.success, ⟨s.initialized, if count' = 0 then none else some newRoot, count'⟩)

/-- `FT_init`. -/
def FT_init (s : FT) : FTStatus × FT :=
  if s.initialized then (.initializationError, s)
  else (.success, ⟨true, none, 0⟩)

/-- `FT_destroy`: free the whole tree (when a root exists, subtracting the
freed count) and return to the uninitialized state. -/
def FT_destroy (s : FT) : FTStatus × FT :=
  if !s.initialized then (.initializationError, s)
  else
    match s.root with
    | none => (.success, ⟨false, none, s.count⟩)
    | some r => (.success, ⟨false, none, s.count - Node_free r⟩)

/-- The serialized lines: every node's rendered path, in pre-order. -/
def serializeLines (root : Option Node) : List String :=
  (DT_preOrderOpt root).map (fun n => render n.path)

/-- `DT_toString`: NULL when uninitialized, otherwise the pre-order paths
each followed by a newline, accumulated by `DT_strcatAccumulate`. -/
def DT_toString (s : FT) : Option String :=
  if !s.initialized then none
  else some ((DT_preOrderOpt s.root).foldl (fun acc n => acc ++ render n.path ++ "\n") "")

/-- The byte count `DT_toString` allocates (`totalStrlen`): 1 plus, for
every node, its path's string length plus one (`DT_strlenAccumulate`). -/
def DT_strlenTotal (s : FT) : Nat :=
  1 + (DT_preOrderOpt s.root).foldl (fun acc n => acc + ((render n.path).length + 1)) 0

/-- The helper `checkerFT_Child_isValid` from `checkerFT.c`: parent/child
path relation, duplicate scan over the later siblings, and the order check
against the previous sibling (`Path_comparePath(prev, child) > 0` fails).
The child-parent pointer identity checks are structural here. -/
def checkerFT_Child_isValid (oNParent oNChild : Node) (index totChildren : Nat) : Bool :=
  (sharedPrefixDepth oNChild.path oNParent.path == oNChild.path.length - 1) &&
  ((List.range totChildren).all (fun j =>
    if j ≤ index then true
    else
      match Node_getChild oNParent j with
      | .ok other => !(render oNChild.path == render other.path)
      | .error _ => true)) &&
  (if 0 < index then
    match Node_getChild oNParent (index - 1) with
    | .ok prev => !(render oNChild.path < render prev.path)
    | .error _ => true
  else true)

/-- `CheckerFT_Node_isValid`: a root node must not be a file; otherwise the
parent path must be the longest proper path prefix; files must report zero
children; each child must pass `checkerFT_Child_isValid`.  The parent is
passed explicitly since parent pointers are structural here. -/
def CheckerFT_Node_isValid (parentOpt : Option Node) (n : Node) : Bool :=
  (match parentOpt with
   | none => !n.isFile
   | some par => sharedPrefixDepth n.path par.path == n.path.length - 1) &&
  (!n.isFile || Node_getNumChildren n == 0) &&
  ((List.range (Node_getNumChildren n)).all (fun i =>
    match Node_getChild n i with
    | .ok child => checkerFT_Child_isValid n child i (Node_getNumChildren n)
    | .error _ => false))

mutual
/-- `CheckerFT_treeCheck`: pre-order recursion validating every node. -/
def CheckerFT_treeCheck : Option Node → Node → Bool
  | parentOpt, .mk p f c l ch =>
    CheckerFT_Node_isValid parentOpt (.mk p f c l ch) &&
    (if f then true else CheckerFT_treeCheckList (.mk p f c l ch) ch)
/-- The child loop of `CheckerFT_treeCheck`. -/
def CheckerFT_treeCheckList : Node → List Node → Bool
  | _, [] => true
  | par, c :: cs => CheckerFT_treeCheck (some par) c && CheckerFT_treeCheckList par cs
end

mutual
/-- `CheckerFT_CountNodes`: the number of nodes reachable from a node
(children visited through `Node_getNumChildren`, 0 for files). -/
def CheckerFT_CountNodes : Node → Nat
  | .mk _ f _ _ ch => 1 + (if f then 0 else CheckerFT_CountNodesList ch)
/-- The child loop of `CheckerFT_CountNodes`. -/
def CheckerFT_CountNodesList : List Node → Nat
  | [] => 0
  | c :: cs => CheckerFT_CountNodes c + CheckerFT_CountNodesList cs
end

/-- `CheckerFT_isValid`: the top-level tree oracle.  The root's
parent-pointer NULL check of the source is structural in this embedding
(the root value carries no parent) and is therefore omitted. -/
def CheckerFT_isValid (bIsInitialized : Bool) (oNRoot : Option Node) (ulCount : Nat) : Bool :=
  if !bIsInitialized then
    if ulCount ≠ 0 then false
    else if oNRoot.isSome then false
    else true
  else
    match oNRoot with
    | none => if ulCount ≠ 0 then false else true
    | some r =>
      if r.isFile then false
      else if CheckerFT_CountNodes r ≠ ulCount then false
      else CheckerFT_treeCheck none r

/-- Strict chain of increasing keys: the sibling order the implementation
maintains (plain `strcmp` on full pathnames, no directory/file priority). -/
def keysSorted : List String → Bool
  | [] => true
  | [_] => true
  | a :: b :: t => decide (a < b) && keysSorted (b :: t)

mutual
/-- Structural well-formedness of a subtree, exactly what the mutating
code maintains: the node's own path is a valid nonempty segment list, file
nodes are childless, every child's path extends the node's path by exactly
one segment, and the children are strictly sorted by rendered pathname. -/
def Node.wf : Node → Bool
  | .mk p f _ _ ch =>
    pathOkB p &&
    (!f || ch.isEmpty) &&
    ch.all (fun c => decide (c.path.take p.length = p) && decide (c.path.length = p.length + 1)) &&
    keysSorted (ch.map nodeKey) &&
    Node.wfList ch
/-- The child loop of `Node.wf`. -/
def Node.wfList : List Node → Bool
  | [] => true
  | c :: cs => Node.wf c && Node.wfList cs
end

mutual
/-- Every node's children are strictly sorted by rendered pathname: the
ordering invariant actually maintained by the code. -/
def Node.allSorted : Node → Bool
  | .mk _ _ _ _ ch => keysSorted (ch.map nodeKey) && Node.allSortedList ch
/-- The child loop of `Node.allSorted`. -/
def Node.allSortedList : List Node → Bool
  | [] => true
  | c :: cs => Node.allSorted c && Node.allSortedList cs
end

/-- Boolean pairwise check over all index pairs `i < j` of a list. -/
def pairwiseB {α : Type} (r : α → α → Bool) : List α → Bool
  | [] => true
  | a :: t => t.all (r a) && pairwiseB r t

/-- The sibling order I4 as the SPEC states it: for `i < j`, either child
`i` is a directory and child `j` a file, or they are of the same kind and
child `i`'s pathname is lexicographically smaller. -/
def specI4Pair (a b : Node) : Bool :=
  (!a.isFile && b.isFile) || (a.isFile == b.isFile && decide (render a.path < render b.path))

mutual
/-- The spec's I4 (directories before files, lexicographic within a kind)
checked at every node of a subtree. -/
def Node.specI4 : Node → Bool
  | .mk _ _ _ _ ch => pairwiseB specI4Pair ch && Node.specI4List ch
/-- The child loop of `Node.specI4`. -/
def Node.specI4List : List Node → Bool
  | [] => true
  | c :: cs => Node.specI4 c && Node.specI4List cs
end

/-- A mutating API call, with its allocation oracle where applicable. -/
inductive FTOp where
  | initOp : FTOp
  | destroyOp : FTOp
  | insertDirOp (alloc : Nat → Bool) (path : String) : FTOp
  | insertFileOp (alloc : Nat → Bool) (path : String)
      (contents : Option (List Nat)) (len : Nat) : FTOp
  | rmOp (path : String) : FTOp

/-- The state after one API call (queries do not mutate). -/
def FT_applyOp (s : FT) : FTOp → FT
  | .initOp => (FT_init s).2
  | .destroyOp => (FT_destroy s).2
  | .insertDirOp alloc path => (FT_insertDir s alloc path).2
  | .insertFileOp alloc path contents len => (FT_insertFile s alloc path contents len).2
  | .rmOp path => (FT_rmDir s path).2

/-- The states observable through the public API, starting from the
pristine uninitialized state. -/
inductive FT_Reachable : FT → Prop
  | start : FT_Reachable ⟨false, none, 0⟩
  | step (s : FT) (op : FTOp) : FT_Reachable s → FT_Reachable (FT_applyOp s op)

/-- An insertion call for the round-trip property: a directory chain or a
file chain (all allocations succeeding). -/
inductive InsOp where
  | dir (path : String) : InsOp
  | file (path : String) (contents : Option (List Nat)) (len : Nat) : InsOp

/-- The path string argument of an insertion call. -/
def InsOp.path : InsOp → String
  | .dir p => p
  | .file p _ _ => p

/-- Perform one insertion call with an all-success allocation oracle. -/
def applyIns (s : FT) : InsOp → FTStatus × FT
  | .dir p => FT_insertDir s (fun _ => true) p
  | .file p c l => FT_insertFile s (fun _ => true) p c l

/-- Run a list of insertion calls, logging each status. -/
def runLog : FT → List InsOp → FT × List FTStatus
  | s, [] => (s, [])
  | s, op :: rest =>
    let r := applyIns s op
    let rec' := runLog r.2 rest
    (rec'.1, r.1 :: rec'.2)

/-- Newline-joined rendering of a list of lines, as `DT_toString`
accumulates it. -/
def linesJoin (ls : List String) : String :=
  ls.foldl (fun acc x => acc ++ x ++ "\n") ""

/-- The root, when present, is a well-formed depth-1 tree: the shape every
state described by the spec's data model has (I1 plus "root-level entries
have depth 1"). -/
def RootOk (s : FT) : Prop :=
  ∀ r, s.root = some r → Node.wf r = true ∧ r.path.length = 1

/-- The count matches the number of nodes reachable from the root. -/
def CountOk (s : FT) : Prop :=
  s.count = (match s.root with | none => 0 | some r => Node_free r)

/-- A node with the given parsed path and kind exists in the tree. -/
def hasNodeAt (root : Option Node) (p : List String) (isFile : Bool) : Prop :=
  ∃ n, n ∈ DT_preOrderOpt root ∧ n.path = p ∧ n.isFile = isFile

/-- The paths of all nodes of the tree, in pre-order. -/
def FT.paths (s : FT) : List (List String) := (DT_preOrderOpt s.root).map Node.path

/-! ### Concrete states and inputs used by the claim theorems -/

/-- The all-success allocation oracle. -/
def allocT : Nat → Bool := fun _ => true

/-- The allocation oracle failing exactly at chain level 3. -/
def allocNo3 : Nat → Bool := fun i => i != 3

/-- The freshly initialized empty tree. -/
def ftStart : FT := ⟨true, none, 0⟩

/-- The insertion calls of the running scenario: `/a`, `/a/b`, `/a/f.txt`. -/
def opsW : List InsOp := [.dir "/a", .dir "/a/b", .file "/a/f.txt" none 0]

/-- The state after the running scenario's three insertions. -/
def stABF : FT := (runLog ftStart opsW).1

/-- The root node of `stABF`. -/
def rootABF : Node :=
  .mk ["a"] false none 0
    [.mk ["a", "b"] false none 0 [], .mk ["a", "f.txt"] true none 0 []]

/-- The file node `/a/f.txt` of `stABF`. -/
def nfF : Node := .mk ["a", "f.txt"] true none 0 []

/-- The state holding the single directory `/x`. -/
def stX : FT := (runLog ftStart [.dir "/x"]).1

/-- The root node of `stX`. -/
def rootX : Node := .mk ["x"] false none 0 []

/-- Insertions producing a file sibling sorted before a directory sibling. -/
def opsMix : List InsOp := [.dir "/p", .file "/p/a.txt" none 0, .dir "/p/b"]

/-- The state after `opsMix`: under `/p` the file `/p/a.txt` precedes the
directory `/p/b`. -/
def stMix : FT := (runLog ftStart opsMix).1

/-- The root node of `stMix`. -/
def rootMix : Node :=
  .mk ["p"] false none 0
    [.mk ["p", "a.txt"] true none 0 [], .mk ["p", "b"] false none 0 []]

/-- The state holding the single directory `/a`. -/
def stA : FT := (runLog ftStart [.dir "/a"]).1

/-- The state left by a depth-2 directory insertion on an empty tree. -/
def s8 : FT := (FT_insertDir ftStart allocT "/a/b").2

/-- A parent directory `/p` with one directory child `/p/b`. -/
def parC7 : Node := .mk ["p"] false none 0 [.mk ["p", "b"] false none 0 []]

/-- `Node_new` linking the file `/p/a.txt` into `parC7`. -/
def r7 : NodeNewResult := Node_new true ["p", "a.txt"] (some parC7) true none 0

/-- The parent `/p` after `r7`: the file child sorted before the directory
child. -/
def paC7 : Node :=
  .mk ["p"] false none 0
    [.mk ["p", "a.txt"] true none 0 [], .mk ["p", "b"] false none 0 []]

/-! ### Lemmas about segments and path rendering -/

/-- All segments of a list are valid. -/
def segsOk (p : List String) : Prop := ∀ s ∈ p, segOkB s = true

theorem pathOkB_iff {p : List String} :
    pathOkB p = true ↔ p ≠ [] ∧ segsOk p := by
  simp [pathOkB, List.all_eq_true, segsOk, List.isEmpty_iff]

theorem segsOk_take {p : List String} (h : segsOk p) (k : Nat) : segsOk (p.take k) :=
  fun s hs => h s (List.mem_of_mem_take hs)

theorem segOk_no_slash {s : String} (h : segOkB s = true) : ∀ c ∈ s.data, c ≠ '/' := by
  have h2 := (Bool.and_eq_true _ _).mp h |>.2
  simpa [List.all_eq_true] using h2

theorem renderData_headSlash (p : List String) :
    renderData p = [] ∨ ∃ t, renderData p = '/' :: t := by
  cases p with
  | nil => exact Or.inl rfl
  | cons s rest => exact Or.inr ⟨_, rfl⟩

theorem append_cancel_no_slash :
    ∀ (a : List Char), ∀ {b r1 r2 : List Char},
      (∀ c ∈ a, c ≠ '/') → (∀ c ∈ b, c ≠ '/') →
      (r1 = [] ∨ ∃ t, r1 = '/' :: t) → (r2 = [] ∨ ∃ t, r2 = '/' :: t) →
      a ++ r1 = b ++ r2 → a = b ∧ r1 = r2 := by
  intro a
  induction a with
  | nil =>
    intro b r1 r2 _ hb h1 _ heq
    cases b with
    | nil => exact ⟨rfl, by simpa using heq⟩
    | cons d bt =>
      exfalso
      rcases h1 with h1 | ⟨t, ht⟩
      · subst h1; simp at heq
      · subst ht
        have hd : d = '/' := by
          simp only [List.nil_append, List.cons_append, List.cons.injEq] at heq
          exact heq.1.symm
        exact hb d (by simp) hd
  | cons c ct ih =>
    intro b r1 r2 ha hb h1 h2 heq
    cases b with
    | nil =>
      exfalso
      rcases h2 with h2 | ⟨t, ht⟩
      · subst h2; simp at heq
      · subst ht
        have hc2 : c = '/' := by
          simp only [List.cons_append, List.nil_append, List.cons.injEq] at heq
          exact heq.1
        exact ha c (by simp) hc2
    | cons d bt =>
      simp only [List.cons_append, List.cons.injEq] at heq
      obtain ⟨hcd, htail⟩ := heq
      have := ih (fun x hx => ha x (List.mem_cons_of_mem _ hx))
        (fun x hx => hb x (List.mem_cons_of_mem _ hx)) h1 h2 htail
      exact ⟨by rw [hcd, this.1], this.2⟩

theorem renderData_inj :
    ∀ p q, segsOk p → segsOk q → renderData p = renderData q → p = q := by
  intro p
  induction p with
  | nil =>
    intro q _ _ h
    cases q with
    | nil => rfl
    | cons t qt => simp [renderData] at h
  | cons s pt ih =>
    intro q hp hq h
    cases q with
    | nil => simp [renderData] at h
    | cons t qt =>
      simp only [renderData, List.cons.injEq] at h
      have hs := hp s (by simp)
      have ht := hq t (by simp)
      obtain ⟨hseg, hrest⟩ := append_cancel_no_slash s.data
        (segOk_no_slash hs) (segOk_no_slash ht)
        (renderData_headSlash pt) (renderData_headSlash qt) h.2
      have hst : s = t := by
        cases s; cases t; exact congrArg String.mk hseg
      have hqt : pt = qt :=
        ih qt (fun x hx => hp x (List.mem_cons_of_mem _ hx))
          (fun x hx => hq x (List.mem_cons_of_mem _ hx)) hrest
      rw [hst, hqt]

theorem render_inj {p q : List String} (hp : segsOk p) (hq : segsOk q)
    (h : render p = render q) : p = q := by
  apply renderData_inj p q hp hq
  have := congrArg String.data h
  simpa [render] using this

theorem render_take_eq {p : List String} (hp : segsOk p) {k : Nat}
    (hk : k ≤ p.length) (h : render (p.take k) = render p) : k = p.length := by
  have := render_inj (segsOk_take hp k) hp h
  have hlen := congrArg List.length this
  simpa [List.length_take, Nat.min_eq_left hk] using hlen

theorem Path_new_ok {str : String} {p : List String}
    (h : Path_new str = .ok p) : pathOkB p = true := by
  unfold Path_new at h
  split at h
  · dsimp only at h
    split at h
    next hc =>
      cases h
      simpa [pathOkB] using hc
    next => exact absurd h (by simp)
  · exact absurd h (by simp)

/-! ### Lemmas about sorted key lists and list surgery -/

theorem keysSorted_iff : ∀ {ks : List String},
    keysSorted ks = true ↔ List.Pairwise (· < ·) ks := by
  intro ks
  induction ks with
  | nil => simp [keysSorted]
  | cons a t ih =>
    cases t with
    | nil => simp [keysSorted]
    | cons b t2 =>
      rw [show keysSorted (a :: b :: t2) = (decide (a < b) && keysSorted (b :: t2)) from rfl,
        Bool.and_eq_true, decide_eq_true_eq, ih,
        ← List.chain'_iff_pairwise, ← List.chain'_iff_pairwise, List.chain'_cons]

theorem mem_insertAt {α : Type} {x y : α} :
    ∀ {i : Nat} {l : List α}, x ∈ insertAt i y l ↔ x = y ∨ x ∈ l := by
  intro i
  induction i with
  | zero => intro l; simp [insertAt]
  | succ n ih =>
    intro l
    cases l with
    | nil => simp [insertAt]
    | cons a t =>
      rw [show insertAt (n + 1) y (a :: t) = a :: insertAt n y t from rfl]
      simp only [List.mem_cons, ih]
      tauto

theorem length_insertAt {α : Type} {y : α} :
    ∀ {i : Nat} {l : List α}, (insertAt i y l).length = l.length + 1 := by
  intro i
  induction i with
  | zero => intro l; simp [insertAt]
  | succ n ih =>
    intro l
    cases l with
    | nil => simp [insertAt]
    | cons a t =>
      rw [show insertAt (n + 1) y (a :: t) = a :: insertAt n y t from rfl]
      simp [ih]

theorem map_insertAt {α β : Type} (f : α → β) {y : α} :
    ∀ {i : Nat} {l : List α}, (insertAt i y l).map f = insertAt i (f y) (l.map f) := by
  intro i
  induction i with
  | zero => intro l; simp [insertAt]
  | succ n ih =>
    intro l
    cases l with
    | nil => simp [insertAt]
    | cons a t =>
      rw [show insertAt (n + 1) y (a :: t) = a :: insertAt n y t from rfl]
      simp only [List.map_cons, ih]
      rfl

theorem set_insertAt {α : Type} {y z : α} :
    ∀ {i : Nat} {l : List α}, i ≤ l.length →
      (insertAt i y l).set i z = insertAt i z l := by
  intro i
  induction i with
  | zero => intro l _; simp [insertAt]
  | succ n ih =>
    intro l hl
    cases l with
    | nil => exact absurd hl (by simp)
    | cons a t =>
      rw [show insertAt (n + 1) y (a :: t) = a :: insertAt n y t from rfl,
        show insertAt (n + 1) z (a :: t) = a :: insertAt n z t from rfl]
      simp only [List.set_cons_succ]
      rw [ih (by simpa using hl)]

theorem insertAt_eq_take_drop {α : Type} {y : α} :
    ∀ {i : Nat} {l : List α}, i ≤ l.length →
      insertAt i y l = l.take i ++ y :: l.drop i := by
  intro i
  induction i with
  | zero => intro l _; simp [insertAt]
  | succ n ih =>
    intro l hl
    cases l with
    | nil => exact absurd hl (by simp)
    | cons a t =>
      rw [show insertAt (n + 1) y (a :: t) = a :: insertAt n y t from rfl]
      simp only [List.take_succ_cons, List.drop_succ_cons, List.cons_append, List.cons.injEq]
      exact ⟨trivial, ih (by simpa using hl)⟩

theorem map_eraseIdx {α β : Type} (f : α → β) :
    ∀ (l : List α) (i : Nat), (l.eraseIdx i).map f = (l.map f).eraseIdx i := by
  intro l
  induction l with
  | nil => intro i; simp
  | cons a t ih =>
    intro i
    cases i with
    | zero => simp [List.eraseIdx]
    | succ n =>
      show f a :: (t.eraseIdx n).map f = f a :: (t.map f).eraseIdx n
      rw [ih n]

theorem lowerCountS_le_length {key : String} {ks : List String} :
    lowerCountS key ks ≤ ks.length :=
  List.countP_le_length _

theorem hasKeyS_iff {key : String} {ks : List String} :
    hasKeyS key ks = true ↔ key ∈ ks := by
  unfold hasKeyS
  rw [List.any_eq_true]
  constructor
  · rintro ⟨x, hx, he⟩
    rw [beq_iff_eq] at he
    exact he ▸ hx
  · intro h
    exact ⟨key, h, beq_self_eq_true key⟩

theorem pairwise_insertAt_lowerCount {key : String} :
    ∀ {ks : List String}, List.Pairwise (· < ·) ks → key ∉ ks →
      List.Pairwise (· < ·) (insertAt (lowerCountS key ks) key ks) := by
  intro ks
  induction ks with
  | nil =>
    intro _ _
    simp [insertAt, lowerCountS]
  | cons a t ih =>
    intro hs hk
    rw [List.pairwise_cons] at hs
    obtain ⟨ha, ht⟩ := hs
    by_cases hak : a < key
    · have hcount : lowerCountS key (a :: t) = lowerCountS key t + 1 := by
        simp only [lowerCountS, List.countP_cons, decide_eq_true_eq]
        rw [if_pos hak]
      rw [hcount, show insertAt (lowerCountS key t + 1) key (a :: t) =
        a :: insertAt (lowerCountS key t) key t from rfl]
      rw [List.pairwise_cons]
      constructor
      · intro x hx
        rcases mem_insertAt.mp hx with h | h
        · exact h ▸ hak
        · exact ha x h
      · exact ih ht (fun h => hk (List.mem_cons_of_mem _ h))
    · have hcount : lowerCountS key (a :: t) = 0 := by
        simp only [lowerCountS, List.countP_cons, decide_eq_true_eq]
        rw [if_neg hak, Nat.add_zero]
        rw [List.countP_eq_zero]
        intro k hkt
        simp only [decide_eq_true_eq]
        intro hlt
        exact hak (lt_trans (ha k hkt) hlt)
      rw [hcount, show insertAt 0 key (a :: t) = key :: a :: t from rfl]
      rw [List.pairwise_cons]
      constructor
      · intro x hx
        have hka : key < a := by
          rcases lt_trichotomy key a with h | h | h
          · exact h
          · exact absurd (h ▸ List.mem_cons_self a t) hk
          · exact absurd h hak
        rcases List.mem_cons.mp hx with h | h
        · exact h ▸ hka
        · exact lt_trans hka (ha x h)
      · exact List.pairwise_cons.mpr ⟨ha, ht⟩

theorem get_lowerCount_of_mem {α : Type} (f : α → String) :
    ∀ {l : List α} {key : String}, List.Pairwise (· < ·) (l.map f) →
      key ∈ l.map f →
      ∃ c, l.get? (lowerCountS key (l.map f)) = some c ∧ f c = key := by
  intro l
  induction l with
  | nil => intro key _ h; simp at h
  | cons a t ih =>
    intro key hs hk
    rw [List.map_cons, List.pairwise_cons] at hs
    obtain ⟨ha, ht⟩ := hs
    by_cases hfa : f a = key
    · have hcount : lowerCountS key (f a :: t.map f) = 0 := by
        simp only [lowerCountS, List.countP_cons, decide_eq_true_eq]
        rw [if_neg (by rw [hfa]; exact lt_irrefl key), Nat.add_zero, List.countP_eq_zero]
        intro k hkt
        simp only [decide_eq_true_eq]
        intro hlt
        exact absurd (ha k hkt) (not_lt.mpr (le_of_lt (hfa ▸ hlt)))
      rw [List.map_cons, hcount]
      exact ⟨a, rfl, hfa⟩
    · have hk' : key ∈ t.map f := by
        rw [List.map_cons] at hk
        rcases List.mem_cons.mp hk with h | h
        · exact absurd h.symm hfa
        · exact h
      by_cases hak : f a < key
      · have hcount : lowerCountS key (f a :: t.map f) = lowerCountS key (t.map f) + 1 := by
          simp only [lowerCountS, List.countP_cons, decide_eq_true_eq]
          rw [if_pos hak]
        rw [List.map_cons, hcount]
        exact ih ht hk'
      · exfalso
        obtain ⟨c, hc, hfc⟩ := List.mem_map.mp hk'
        exact hak (hfc ▸ ha (f c) (List.mem_map_of_mem f hc))

theorem lowerCount_eq_of_get {α : Type} (f : α → String) :
    ∀ {l : List α} {j : Nat} {c : α}, List.Pairwise (· < ·) (l.map f) →
      l.get? j = some c →
      lowerCountS (f c) (l.map f) = j := by
  intro l
  induction l with
  | nil => intro j c _ h; simp at h
  | cons a t ih =>
    intro j c hs hj
    rw [List.map_cons, List.pairwise_cons] at hs
    obtain ⟨ha, ht⟩ := hs
    cases j with
    | zero =>
      cases (by simpa using hj : a = c)
      simp only [List.map_cons, lowerCountS, List.countP_cons, decide_eq_true_eq]
      rw [if_neg (lt_irrefl (f a)), Nat.add_zero, List.countP_eq_zero]
      intro k hkt
      simp only [decide_eq_true_eq]
      intro hlt
      exact absurd (ha k hkt) (not_lt.mpr (le_of_lt hlt))
    | succ n =>
      have hc : t.get? n = some c := by simpa using hj
      have hmem : c ∈ t := List.get?_mem hc
      have hfc : f a < f c := ha (f c) (List.mem_map_of_mem f hmem)
      simp only [List.map_cons, lowerCountS, List.countP_cons, decide_eq_true_eq]
      rw [if_pos hfc]
      rw [show List.countP (fun k => decide (k < f c)) (t.map f) = lowerCountS (f c) (t.map f) from rfl]
      rw [ih ht hc]

/-! ### Basic node lemmas -/

@[simp] theorem Node.path_mk (p : List String) (f : Bool) (c : Option (List Nat))
    (l : Nat) (ch : List Node) : (Node.mk p f c l ch).path = p := rfl

@[simp] theorem Node.isFile_mk (p : List String) (f : Bool) (c : Option (List Nat))
    (l : Nat) (ch : List Node) : (Node.mk p f c l ch).isFile = f := rfl

@[simp] theorem Node.children_mk (p : List String) (f : Bool) (c : Option (List Nat))
    (l : Nat) (ch : List Node) : (Node.mk p f c l ch).children = ch := rfl

theorem Node.myInduction {P : Node → Prop}
    (h : ∀ p f c l ch, (∀ x ∈ ch, P x) → P (Node.mk p f c l ch)) : ∀ n, P n
  | .mk p f c l ch =>
    h p f c l ch (fun x hx =>
      have : sizeOf x < sizeOf (Node.mk p f c l ch) := by
        have h1 : sizeOf x < sizeOf ch := List.sizeOf_lt_of_mem hx
        simp only [Node.mk.sizeOf_spec]
        omega
      Node.myInduction h x)
termination_by n => sizeOf n

theorem Node.wfList_iff : ∀ {l : List Node},
    Node.wfList l = true ↔ ∀ c ∈ l, Node.wf c = true := by
  intro l
  induction l with
  | nil => simp [Node.wfList]
  | cons c cs ih =>
    rw [show Node.wfList (c :: cs) = (Node.wf c && Node.wfList cs) from rfl,
      Bool.and_eq_true, ih]
    simp

theorem Node.wf_iff {n : Node} : Node.wf n = true ↔
    pathOkB n.path = true ∧
    (n.isFile = true → n.children = []) ∧
    (∀ c ∈ n.children, c.path.take n.path.length = n.path ∧
      c.path.length = n.path.length + 1) ∧
    List.Pairwise (· < ·) (n.children.map nodeKey) ∧
    (∀ c ∈ n.children, Node.wf c = true) := by
  cases n with
  | mk p f c l ch =>
    rw [show Node.wf (Node.mk p f c l ch) =
      (pathOkB p &&
       ((!f || ch.isEmpty) &&
        (ch.all (fun c' => decide (c'.path.take p.length = p) &&
           decide (c'.path.length = p.length + 1)) &&
         (keysSorted (ch.map nodeKey) && Node.wfList ch)))) from by
      simp [Node.wf, Bool.and_assoc]]
    simp only [Bool.and_eq_true, List.all_eq_true, Bool.and_eq_true, decide_eq_true_eq,
      keysSorted_iff, Node.wfList_iff, Node.path_mk, Node.isFile_mk, Node.children_mk,
      Bool.or_eq_true, Bool.not_eq_true', List.isEmpty_iff]
    constructor
    · rintro ⟨h1, h2, h3, h4, h5⟩
      exact ⟨h1, fun hf => h2.elim (fun h => absurd hf (by simp [h])) id,
        fun c' hc => (h3 c' hc), h4, h5⟩
    · rintro ⟨h1, h2, h3, h4, h5⟩
      refine ⟨h1, ?_, fun c' hc => h3 c' hc, h4, h5⟩
      cases f with
      | false => left; rfl
      | true => right; exact h2 rfl

theorem Node.allSortedList_iff : ∀ {l : List Node},
    Node.allSortedList l = true ↔ ∀ c ∈ l, Node.allSorted c = true := by
  intro l
  induction l with
  | nil => simp [Node.allSortedList]
  | cons c cs ih =>
    rw [show Node.allSortedList (c :: cs) = (Node.allSorted c && Node.allSortedList cs) from rfl,
      Bool.and_eq_true, ih]
    simp

theorem Node.allSorted_iff {n : Node} : Node.allSorted n = true ↔
    List.Pairwise (· < ·) (n.children.map nodeKey) ∧
    (∀ c ∈ n.children, Node.allSorted c = true) := by
  cases n with
  | mk p f c l ch =>
    rw [show Node.allSorted (Node.mk p f c l ch) =
      (keysSorted (ch.map nodeKey) && Node.allSortedList ch) from rfl,
      Bool.and_eq_true, keysSorted_iff, Node.allSortedList_iff]
    simp

/-- Well-formedness implies the ordering invariant. -/
theorem Node.wf_allSorted : ∀ {n : Node}, Node.wf n = true → Node.allSorted n = true := by
  intro n
  induction n using Node.myInduction with
  | h p f c l ch ih =>
    intro hwf
    rw [Node.wf_iff] at hwf
    rw [Node.allSorted_iff]
    exact ⟨hwf.2.2.2.1, fun c' hc => ih c' (by simpa using hc) (hwf.2.2.2.2 c' (by simpa using hc))⟩

theorem DT_preOrderList_append : ∀ (l1 l2 : List Node),
    DT_preOrderList (l1 ++ l2) = DT_preOrderList l1 ++ DT_preOrderList l2 := by
  intro l1
  induction l1 with
  | nil => intro l2; rfl
  | cons c cs ih =>
    intro l2
    rw [List.cons_append,
      show DT_preOrderList (c :: (cs ++ l2)) = DT_preOrder c ++ DT_preOrderList (cs ++ l2) from rfl,
      show DT_preOrderList (c :: cs) = DT_preOrder c ++ DT_preOrderList cs from rfl,
      ih, List.append_assoc]

theorem DT_preOrder_eq (n : Node) :
    DT_preOrder n = n :: DT_preOrderList n.effChildren := by
  cases n with
  | mk p f c l ch =>
    cases f with
    | false => rfl
    | true => rfl

theorem mem_preorderList : ∀ {l : List Node} {x : Node},
    x ∈ DT_preOrderList l ↔ ∃ c ∈ l, x ∈ DT_preOrder c := by
  intro l
  induction l with
  | nil => intro x; simp [DT_preOrderList]
  | cons c cs ih =>
    intro x
    rw [show DT_preOrderList (c :: cs) = DT_preOrder c ++ DT_preOrderList cs from rfl,
      List.mem_append, ih]
    simp

theorem self_mem_preorder (n : Node) : n ∈ DT_preOrder n := by
  rw [DT_preOrder_eq]
  exact List.mem_cons_self _ _

/-- Well-formedness is inherited by every node of the subtree. -/
theorem Node.wf_of_mem_preorder : ∀ {n : Node}, Node.wf n = true →
    ∀ {x : Node}, x ∈ DT_preOrder n → Node.wf x = true := by
  intro n
  induction n using Node.myInduction with
  | h p f c l ch ih =>
    intro hwf x hx
    rw [DT_preOrder_eq] at hx
    rcases List.mem_cons.mp hx with h | h
    · exact h ▸ hwf
    · rw [mem_preorderList] at h
      obtain ⟨c', hc', hx'⟩ := h
      have hc'' : c' ∈ ch := by
        have := hc'
        simp only [Node.effChildren, Node.isFile_mk, Node.children_mk] at this
        split at this
        · simp at this
        · exact this
      exact ih c' hc'' ((Node.wf_iff.mp hwf).2.2.2.2 c' hc'') hx'

/-! ### Structural lemmas about well-formed subtrees -/

theorem Node.effChildren_eq_of_wf {n : Node} (h : Node.wf n = true) :
    n.effChildren = n.children := by
  unfold Node.effChildren
  split
  next hf =>
    rw [(Node.wf_iff.mp h).2.1 hf]
  next => rfl

theorem mem_pathsOf_iff {n : Node} {q : List String} :
    q ∈ Node.pathsOf n ↔ ∃ x ∈ DT_preOrder n, x.path = q := by
  unfold Node.pathsOf
  simp [List.mem_map]

theorem pathOkB_of_mem_pathsOf {n : Node} (hwf : Node.wf n = true)
    {q : List String} (hq : q ∈ Node.pathsOf n) : pathOkB q = true := by
  obtain ⟨x, hx, hxq⟩ := mem_pathsOf_iff.mp hq
  have := Node.wf_of_mem_preorder hwf hx
  exact hxq ▸ (Node.wf_iff.mp this).1

/-- In a well-formed subtree every path extends the subtree root's path. -/
theorem pathsOf_extend : ∀ {n : Node}, Node.wf n = true →
    ∀ q ∈ Node.pathsOf n, q.take n.path.length = n.path ∧ n.path.length ≤ q.length := by
  intro n
  induction n using Node.myInduction with
  | h p f c l ch ih =>
    intro hwf q hq
    rw [mem_pathsOf_iff] at hq
    obtain ⟨x, hx, hxq⟩ := hq
    rw [DT_preOrder_eq] at hx
    rcases List.mem_cons.mp hx with h | h
    · subst hxq
      rw [h]
      exact ⟨List.take_length _, le_refl _⟩
    · rw [mem_preorderList] at h
      obtain ⟨c', hc', hx'⟩ := h
      rw [Node.effChildren_eq_of_wf hwf] at hc'
      have hc'' : c' ∈ ch := by simpa using hc'
      have hrec := ih c' hc'' ((Node.wf_iff.mp hwf).2.2.2.2 c' hc'') q
        (mem_pathsOf_iff.mpr ⟨x, hx', hxq⟩)
      have hcp := (Node.wf_iff.mp hwf).2.2.1 c' hc''
      simp only [Node.path_mk] at hcp ⊢
      constructor
      · have h1 : q.take p.length = (q.take c'.path.length).take p.length := by
          rw [List.take_take, Nat.min_eq_left (by omega)]
        rw [h1, hrec.1, hcp.1]
      · omega

/-- The pre-order path list of a well-formed subtree has no duplicates. -/
theorem preorderList_paths_nodup :
    ∀ (ch : List Node) (d : Nat),
      (∀ c ∈ ch, Node.wf c = true) →
      (∀ c ∈ ch, c.path.length = d) →
      List.Pairwise (· < ·) (ch.map nodeKey) →
      (∀ c ∈ ch, (Node.pathsOf c).Nodup) →
      ((DT_preOrderList ch).map Node.path).Nodup := by
  intro ch
  induction ch with
  | nil => intro d _ _ _ _; simp [DT_preOrderList]
  | cons c cs ih =>
    intro d hwf hd hs hnd
    rw [show DT_preOrderList (c :: cs) = DT_preOrder c ++ DT_preOrderList cs from rfl,
      List.map_append, List.nodup_append]
    rw [List.map_cons, List.pairwise_cons] at hs
    refine ⟨hnd c (by simp), ih d (fun x hx => hwf x (by simp [hx]))
      (fun x hx => hd x (by simp [hx])) hs.2 (fun x hx => hnd x (by simp [hx])), ?_⟩
    intro q hq hq'
    obtain ⟨c', hc', hqc'⟩ : ∃ c' ∈ cs, q ∈ Node.pathsOf c' := by
      rw [List.mem_map] at hq'
      obtain ⟨x, hx, hxq⟩ := hq'
      rw [mem_preorderList] at hx
      obtain ⟨c', hc', hx'⟩ := hx
      exact ⟨c', hc', mem_pathsOf_iff.mpr ⟨x, hx', hxq⟩⟩
    have h1 := pathsOf_extend (hwf c (by simp)) q (by
      rw [mem_pathsOf_iff]
      rw [List.mem_map] at hq
      obtain ⟨x, hx, hxq⟩ := hq
      exact ⟨x, hx, hxq⟩)
    have h2 := pathsOf_extend (hwf c' (by simp [hc'])) q hqc'
    have hdc : c.path.length = d := hd c (by simp)
    have hdc' : c'.path.length = d := hd c' (by simp [hc'])
    have hpp : c.path = c'.path := by
      rw [← h1.1, ← h2.1, hdc, hdc']
    have hkey : nodeKey c < nodeKey c' := hs.1 (nodeKey c') (List.mem_map_of_mem _ hc')
    rw [show nodeKey c = render c.path from rfl, show nodeKey c' = render c'.path from rfl,
      hpp] at hkey
    exact lt_irrefl _ hkey

theorem Node.pathsOf_nodup : ∀ {n : Node}, Node.wf n = true → (Node.pathsOf n).Nodup := by
  intro n
  induction n using Node.myInduction with
  | h p f c l ch ih =>
    intro hwf
    unfold Node.pathsOf
    rw [DT_preOrder_eq, Node.effChildren_eq_of_wf hwf, List.map_cons, List.nodup_cons]
    have hiff := Node.wf_iff.mp hwf
    simp only [Node.path_mk, Node.children_mk, Node.isFile_mk] at hiff
    constructor
    · intro hmem
      obtain ⟨c', hc', hq⟩ : ∃ c' ∈ ch, p ∈ Node.pathsOf c' := by
        rw [List.mem_map] at hmem
        obtain ⟨x, hx, hxq⟩ := hmem
        rw [mem_preorderList] at hx
        obtain ⟨c', hc', hx'⟩ := hx
        exact ⟨c', hc', mem_pathsOf_iff.mpr ⟨x, hx', hxq⟩⟩
      have hext := pathsOf_extend (hiff.2.2.2.2 c' hc') p hq
      have hlen := (hiff.2.2.1 c' hc').2
      omega
    · exact preorderList_paths_nodup ch (p.length + 1)
        (fun x hx => hiff.2.2.2.2 x hx)
        (fun x hx => (hiff.2.2.1 x hx).2)
        hiff.2.2.2.1
        (fun x hx => ih x hx (hiff.2.2.2.2 x hx))

/-- The rendered pre-order path list of a well-formed subtree has no
duplicates. -/
theorem Node.rendered_nodup {n : Node} (hwf : Node.wf n = true) :
    ((Node.pathsOf n).map render).Nodup := by
  apply (Node.pathsOf_nodup hwf).map_on
  intro x hx y hy hxy
  exact render_inj (pathOkB_iff.mp (pathOkB_of_mem_pathsOf hwf hx)).2
    (pathOkB_iff.mp (pathOkB_of_mem_pathsOf hwf hy)).2 hxy

/-! ### Lemmas about routes and splicing -/

theorem list_split_at_get {α : Type} {l : List α} {i : Nat} {c : α}
    (h : l.get? i = some c) : l = l.take i ++ c :: l.drop (i + 1) := by
  have hi : i < l.length := by
    by_contra hge
    rw [List.get?_eq_none.mpr (le_of_not_lt hge)] at h
    exact absurd h (by simp)
  conv_lhs => rw [← List.take_append_drop i l]
  congr 1
  have hgc : l.get ⟨i, hi⟩ = c := by
    have := List.get?_eq_get hi
    rw [this] at h
    exact Option.some.inj h
  rw [← hgc]
  exact (List.get_cons_drop l ⟨i, hi⟩).symm

theorem set_get_self {α : Type} : ∀ {l : List α} {i : Nat} {c : α},
    l.get? i = some c → l.set i c = l := by
  intro l
  induction l with
  | nil => intro i c h; simp at h
  | cons a t ih =>
    intro i c h
    cases i with
    | zero =>
      cases (by simpa using h : a = c)
      rfl
    | succ n =>
      rw [List.set_cons_succ]
      rw [ih (by simpa using h)]

theorem DT_preOrderList_split {l : List Node} {i : Nat} {c : Node}
    (h : l.get? i = some c) :
    DT_preOrderList l =
      DT_preOrderList (l.take i) ++ DT_preOrder c ++ DT_preOrderList (l.drop (i + 1)) := by
  conv_lhs => rw [list_split_at_get h]
  rw [DT_preOrderList_append,
    show DT_preOrderList (c :: l.drop (i + 1)) =
      DT_preOrder c ++ DT_preOrderList (l.drop (i + 1)) from rfl,
    List.append_assoc]

theorem DT_preOrderList_set {l : List Node} {i : Nat} {c : Node} (x : Node)
    (h : l.get? i = some c) :
    DT_preOrderList (l.set i x) =
      DT_preOrderList (l.take i) ++ DT_preOrder x ++ DT_preOrderList (l.drop (i + 1)) := by
  have hi : i < l.length := by
    by_contra hge
    rw [List.get?_eq_none.mpr (le_of_not_lt hge)] at h
    exact absurd h (by simp)
  rw [List.set_eq_take_append_cons_drop, if_pos hi, DT_preOrderList_append,
    show DT_preOrderList (x :: l.drop (i + 1)) =
      DT_preOrder x ++ DT_preOrderList (l.drop (i + 1)) from rfl,
    List.append_assoc]

theorem nodeAtRoute_wf : ∀ (rt : List Nat) {r a : Node},
    Node.wf r = true → nodeAtRoute r rt = some a → Node.wf a = true := by
  intro rt
  induction rt with
  | nil =>
    intro r a hwf h
    cases (by simpa [nodeAtRoute] using h : r = a)
    exact hwf
  | cons i rt' ih =>
    intro r a hwf h
    unfold nodeAtRoute at h
    rcases hg : r.children.get? i with _ | child
    · rw [hg] at h; exact absurd h (by simp)
    · rw [hg] at h
      have hmem : child ∈ r.children := List.get?_mem hg
      exact ih ((Node.wf_iff.mp hwf).2.2.2.2 child hmem) h

theorem updAt_path : ∀ (rt : List Nat) (r : Node) (f : Node → Node),
    (∀ a, nodeAtRoute r rt = some a → (f a).path = a.path) →
    (Node.updAt r rt f).path = r.path := by
  intro rt r f h
  cases rt with
  | nil =>
    cases r with
    | mk p fl c l ch => exact h _ rfl
  | cons i rt' =>
    cases r with
    | mk p fl c l ch => rfl

/-- The pre-order path list of a spliced tree: splicing at a valid route
replaces exactly the replaced subtree's block of paths, everything else is
untouched. -/
theorem pathsOf_updAt : ∀ (rt : List Nat) (r a : Node),
    Node.wf r = true → nodeAtRoute r rt = some a →
    ∃ pre post, Node.pathsOf r = pre ++ Node.pathsOf a ++ post ∧
      ∀ f : Node → Node,
        Node.pathsOf (Node.updAt r rt f) = pre ++ Node.pathsOf (f a) ++ post := by
  intro rt
  induction rt with
  | nil =>
    intro r a _ h
    cases (by simpa [nodeAtRoute] using h : r = a)
    exact ⟨[], [], by simp, fun f => by simp [Node.updAt]⟩
  | cons i rt' ih =>
    intro r a hwf h
    cases r with
    | mk p fl c l ch =>
      unfold nodeAtRoute at h
      rcases hg : (Node.mk p fl c l ch).children.get? i with _ | child
      · rw [hg] at h; exact absurd h (by simp)
      rw [hg] at h
      simp only [Node.children_mk] at hg
      cases fl with
      | true =>
        exfalso
        have hnil : ch = [] := by
          have := (Node.wf_iff.mp hwf).2.1
          simpa using this rfl
        rw [hnil] at hg
        simp at hg
      | false =>
        have hmem : child ∈ ch := List.get?_mem hg
        have hchwf : Node.wf child = true :=
          (Node.wf_iff.mp hwf).2.2.2.2 child (by simpa using hmem)
        obtain ⟨pre', post', hsplit, hupd⟩ := ih child a hchwf h
        refine ⟨p :: ((DT_preOrderList (ch.take i)).map Node.path ++ pre'),
          post' ++ (DT_preOrderList (ch.drop (i + 1))).map Node.path, ?_, ?_⟩
        · unfold Node.pathsOf
          rw [DT_preOrder_eq]
          simp only [Node.effChildren, Node.isFile_mk, Bool.false_eq_true, if_false,
            Node.children_mk]
          rw [DT_preOrderList_split hg, List.map_cons, List.map_append, List.map_append,
            show (DT_preOrder child).map Node.path = Node.pathsOf child from rfl, hsplit]
          simp [Node.pathsOf, List.append_assoc]
        · intro f
          show Node.pathsOf (Node.updAt (Node.mk p false c l ch) (i :: rt') f) = _
          rw [show Node.updAt (Node.mk p false c l ch) (i :: rt') f =
            Node.mk p false c l
              (match ch.get? i with
               | some child' => ch.set i (Node.updAt child' rt' f)
               | none => ch) from rfl, hg]
          unfold Node.pathsOf
          rw [DT_preOrder_eq]
          simp only [Node.effChildren, Node.isFile_mk, Bool.false_eq_true, if_false,
            Node.children_mk]
          rw [DT_preOrderList_set (Node.updAt child rt' f) hg, List.map_cons,
            List.map_append, List.map_append,
            show (DT_preOrder (Node.updAt child rt' f)).map Node.path =
              Node.pathsOf (Node.updAt child rt' f) from rfl, hupd f]
          simp [Node.pathsOf, List.append_assoc]

theorem updAt_route_path {rt : List Nat} {r a : Node} (h : nodeAtRoute r rt = some a)
    {f : Node → Node} (hf : (f a).path = a.path) :
    (Node.updAt r rt f).path = r.path := by
  apply updAt_path
  intro a' ha'
  rw [h] at ha'
  cases Option.some.inj ha'
  exact hf

/-- Splicing a well-formed subtree with an equal root path at a valid route
preserves well-formedness. -/
theorem wf_updAt : ∀ (rt : List Nat) (r a : Node),
    Node.wf r = true → nodeAtRoute r rt = some a →
    ∀ f : Node → Node, Node.wf (f a) = true → (f a).path = a.path →
    Node.wf (Node.updAt r rt f) = true := by
  intro rt
  induction rt with
  | nil =>
    intro r a hwf h f hfa _
    cases r with
    | mk p fl c l ch =>
      cases (by simpa [nodeAtRoute] using h : Node.mk p fl c l ch = a)
      exact hfa
  | cons i rt' ih =>
    intro r a hwf h f hfa hpath
    cases r with
    | mk p fl c l ch =>
      unfold nodeAtRoute at h
      rcases hg : (Node.mk p fl c l ch).children.get? i with _ | child
      · rw [hg] at h; exact absurd h (by simp)
      rw [hg, show (match some child with
        | some c => nodeAtRoute c rt'
        | none => none) = nodeAtRoute child rt' from rfl] at h
      simp only [Node.children_mk] at hg
      cases fl with
      | true =>
        exfalso
        have hnil : ch = [] := by
          have := (Node.wf_iff.mp hwf).2.1
          simpa using this rfl
        rw [hnil] at hg
        simp at hg
      | false =>
        have hmem : child ∈ ch := List.get?_mem hg
        have hchwf : Node.wf child = true :=
          (Node.wf_iff.mp hwf).2.2.2.2 child (by simpa using hmem)
        have hx : Node.wf (Node.updAt child rt' f) = true := ih child a hchwf h f hfa hpath
        have hxpath : (Node.updAt child rt' f).path = child.path :=
          updAt_route_path h hpath
        rw [show Node.updAt (Node.mk p false c l ch) (i :: rt') f =
          Node.mk p false c l
            (match ch.get? i with
             | some child' => ch.set i (Node.updAt child' rt' f)
             | none => ch) from rfl, hg]
        have hiff := Node.wf_iff.mp hwf
        simp only [Node.path_mk, Node.isFile_mk, Node.children_mk] at hiff
        rw [Node.wf_iff]
        simp only [Node.path_mk, Node.isFile_mk, Node.children_mk]
        refine ⟨hiff.1, by simp, ?_, ?_, ?_⟩
        · intro c' hc'
          rcases List.mem_or_eq_of_mem_set hc' with hold | hnew
          · exact hiff.2.2.1 c' hold
          · subst hnew
            rw [hxpath]
            exact hiff.2.2.1 child hmem
        · rw [List.map_set]
          have hkey : nodeKey (Node.updAt child rt' f) = nodeKey child := by
            unfold nodeKey
            rw [hxpath]
          rw [hkey, set_get_self (by rw [List.get?_map, hg]; rfl)]
          exact hiff.2.2.2.1
        · intro c' hc'
          rcases List.mem_or_eq_of_mem_set hc' with hold | hnew
          · exact hiff.2.2.2.2 c' hold
          · subst hnew
            exact hx

theorem DT_preOrderList_eraseIdx (l : List Node) (i : Nat) :
    DT_preOrderList (l.eraseIdx i) =
      DT_preOrderList (l.take i) ++ DT_preOrderList (l.drop (i + 1)) := by
  rw [List.eraseIdx_eq_take_drop_succ, DT_preOrderList_append]

theorem detach_path (par : Node) (key : String) :
    (par.detachChildKey key).path = par.path := by
  cases par with
  | mk p f c l ch =>
    rw [show Node.detachChildKey (Node.mk p f c l ch) key =
      (if f then Node.mk p f c l ch
       else if hasKeyS key (ch.map nodeKey) then
         Node.mk p f c l (ch.eraseIdx (lowerCountS key (ch.map nodeKey)))
       else Node.mk p f c l ch) from rfl]
    split
    · rfl
    · split <;> rfl

theorem wf_detach {par : Node} (hwf : Node.wf par = true) (key : String) :
    Node.wf (par.detachChildKey key) = true := by
  cases par with
  | mk p f c l ch =>
    rw [show Node.detachChildKey (Node.mk p f c l ch) key =
      (if f then Node.mk p f c l ch
       else if hasKeyS key (ch.map nodeKey) then
         Node.mk p f c l (ch.eraseIdx (lowerCountS key (ch.map nodeKey)))
       else Node.mk p f c l ch) from rfl]
    split
    · exact hwf
    split
    · have hiff := Node.wf_iff.mp hwf
      simp only [Node.path_mk, Node.isFile_mk, Node.children_mk] at hiff
      rw [Node.wf_iff]
      simp only [Node.path_mk, Node.isFile_mk, Node.children_mk]
      have hsub := List.eraseIdx_sublist ch (lowerCountS key (ch.map nodeKey))
      refine ⟨hiff.1, ?_, ?_, ?_, ?_⟩
      · intro hf
        rw [hiff.2.1 hf]
        simp [List.eraseIdx]
      · intro c' hc'
        exact hiff.2.2.1 c' (hsub.mem hc')
      · rw [map_eraseIdx]
        exact List.Pairwise.sublist (List.eraseIdx_sublist _ _) hiff.2.2.2.1
      · intro c' hc'
        exact hiff.2.2.2.2 c' (hsub.mem hc')
    · exact hwf

theorem pathsOf_nonfile (n : Node) (hf : n.isFile = false) :
    Node.pathsOf n = n.path :: (DT_preOrderList n.children).map Node.path := by
  unfold Node.pathsOf
  rw [DT_preOrder_eq, List.map_cons]
  unfold Node.effChildren
  rw [if_neg (by rw [hf]; exact Bool.false_ne_true)]

theorem mem_pathsOf_addChild {par nd : Node} {idx : Nat} (hpf : par.isFile = false)
    (hidx : idx ≤ par.children.length) {q : List String} :
    q ∈ Node.pathsOf (Node_addChild par nd idx) ↔
      q ∈ Node.pathsOf par ∨ q ∈ Node.pathsOf nd := by
  cases par with
  | mk p f c l ch =>
    simp only [Node.isFile_mk] at hpf
    subst hpf
    rw [show Node_addChild (Node.mk p false c l ch) nd idx =
      Node.mk p false c l (insertAt idx nd ch) from rfl]
    rw [pathsOf_nonfile _ (by rfl), pathsOf_nonfile _ (by rfl)]
    simp only [Node.path_mk, Node.children_mk] at hidx ⊢
    rw [insertAt_eq_take_drop hidx, DT_preOrderList_append,
      show DT_preOrderList (nd :: ch.drop idx) =
        DT_preOrder nd ++ DT_preOrderList (ch.drop idx) from rfl]
    conv_rhs => rw [← List.take_append_drop idx ch]
    rw [DT_preOrderList_append]
    simp only [List.map_append, List.mem_cons, List.mem_append, mem_pathsOf_iff]
    constructor
    · rintro (h | h | h | h)
      · exact Or.inl (Or.inl h)
      · exact Or.inl (Or.inr (Or.inl h))
      · rw [List.mem_map] at h
        obtain ⟨x, hx, hxq⟩ := h
        exact Or.inr ⟨x, hx, hxq⟩
      · exact Or.inl (Or.inr (Or.inr h))
    · rintro ((h | h | h) | h)
      · exact Or.inl h
      · exact Or.inr (Or.inl h)
      · exact Or.inr (Or.inr (Or.inr h))
      · obtain ⟨x, hx, hxq⟩ := h
        exact Or.inr (Or.inr (Or.inl (List.mem_map.mpr ⟨x, hx, hxq⟩)))

/-- Adding a well-formed child whose path extends the parent's by one
segment, at the binary-search insertion index, preserves well-formedness. -/
theorem wf_addChild {par nd : Node} (hwf : Node.wf par = true)
    (hpf : par.isFile = false) (hnd : Node.wf nd = true)
    (htake : nd.path.take par.path.length = par.path)
    (hlen : nd.path.length = par.path.length + 1)
    (hnew : hasKeyS (render nd.path) (par.children.map nodeKey) = false) :
    Node.wf (Node_addChild par nd
      (lowerCountS (render nd.path) (par.children.map nodeKey))) = true := by
  cases par with
  | mk p f c l ch =>
    simp only [Node.isFile_mk] at hpf
    subst hpf
    simp only [Node.path_mk, Node.children_mk] at htake hlen hnew ⊢
    rw [show Node_addChild (Node.mk p false c l ch) nd
      (lowerCountS (render nd.path) (ch.map nodeKey)) =
      Node.mk p false c l (insertAt (lowerCountS (render nd.path) (ch.map nodeKey)) nd ch)
      from rfl]
    have hiff := Node.wf_iff.mp hwf
    simp only [Node.path_mk, Node.isFile_mk, Node.children_mk] at hiff
    rw [Node.wf_iff]
    simp only [Node.path_mk, Node.isFile_mk, Node.children_mk]
    refine ⟨hiff.1, by simp, ?_, ?_, ?_⟩
    · intro c' hc'
      rcases mem_insertAt.mp hc' with hnewm | hold
      · subst hnewm
        exact ⟨htake, hlen⟩
      · exact hiff.2.2.1 c' hold
    · rw [map_insertAt]
      have hnotmem : render nd.path ∉ ch.map nodeKey := by
        intro hmem
        have := hasKeyS_iff.mpr hmem
        rw [hnew] at this
        exact absurd this (by simp)
      exact pairwise_insertAt_lowerCount hiff.2.2.2.1 hnotmem
    · intro c' hc'
      rcases mem_insertAt.mp hc' with hnewm | hold
      · subst hnewm; exact hnd
      · exact hiff.2.2.2.2 c' hold

/-! ### Traversal lemmas -/

theorem node_unique_by_path {r : Node} (hwf : Node.wf r = true) {x y : Node}
    (hx : x ∈ DT_preOrder r) (hy : y ∈ DT_preOrder r) (hxy : x.path = y.path) : x = y := by
  have hnd : ((DT_preOrder r).map Node.path).Nodup := Node.pathsOf_nodup hwf
  exact List.inj_on_of_nodup_map hnd hx hy hxy

theorem wf_child_of_found {curr : Node} (hwf : Node.wf curr = true)
    (hcf : curr.isFile = false) {q : List String} (hq : pathOkB q = true)
    (hfound : hasKeyS (render q) (curr.children.map nodeKey) = true) :
    ∃ child, curr.children.get? (lowerCountS (render q) (curr.children.map nodeKey)) =
        some child ∧ child ∈ curr.children ∧ child.path = q := by
  have hmem : render q ∈ curr.children.map nodeKey := hasKeyS_iff.mp hfound
  obtain ⟨c, hc, hkey⟩ := get_lowerCount_of_mem nodeKey (Node.wf_iff.mp hwf).2.2.2.1 hmem
  have hcm : c ∈ curr.children := List.get?_mem hc
  have hcwf : Node.wf c = true := (Node.wf_iff.mp hwf).2.2.2.2 c hcm
  refine ⟨c, hc, hcm, ?_⟩
  exact render_inj (pathOkB_iff.mp (Node.wf_iff.mp hcwf).1).2 (pathOkB_iff.mp hq).2 hkey

theorem pathOkB_take {p : List String} (hp : pathOkB p = true) {k : Nat}
    (hk : 1 ≤ k) (hlen : 1 ≤ p.length) : pathOkB (p.take k) = true := by
  rw [pathOkB_iff] at hp ⊢
  refine ⟨?_, segsOk_take hp.2 k⟩
  intro hnil
  have := congrArg List.length hnil
  simp only [List.length_take, List.length_nil] at this
  omega

/-- Soundness of the traversal loop: on success the returned node lies at
the returned route, its path is the prefix of the target it reached, and
when it stopped short of the full depth the next level is absent. -/
theorem goTraverse_sound (p : List String) (hp : pathOkB p = true) :
    ∀ (n i : Nat) (curr : Node) (rt0 : List Nat) (a : Node) (rt : List Nat),
      i + n = p.length + 1 → 2 ≤ i →
      Node.wf curr = true → curr.path = p.take (i - 1) →
      FT_goTraverse p (List.range' i n) curr rt0 = .ok (a, rt) →
      ∃ rt', rt = rt0 ++ rt' ∧ nodeAtRoute curr rt' = some a ∧
        Node.wf a = true ∧ a.path = p.take a.path.length ∧
        i - 1 ≤ a.path.length ∧ a.path.length ≤ p.length ∧
        (a.path.length < p.length →
          a.isFile = false ∧
          hasKeyS (render (p.take (a.path.length + 1))) (a.children.map nodeKey) = false) := by
  intro n
  induction n with
  | zero =>
    intro i curr rt0 a rt hin hi2 hwf hcp hgo
    rw [show List.range' i 0 = [] from rfl,
      show FT_goTraverse p [] curr rt0 = .ok (curr, rt0) from rfl] at hgo
    obtain ⟨h1, h2⟩ : curr = a ∧ rt0 = rt := by
      have := Option.some.inj (congrArg (fun x => x.toOption) hgo)
      exact ⟨congrArg Prod.fst this, congrArg Prod.snd this⟩
    subst h1; subst h2
    have hlen : curr.path.length = p.length := by
      rw [hcp, List.length_take]
      omega
    refine ⟨[], by simp, rfl, hwf, ?_, by omega, by omega, by omega⟩
    rw [hlen, hcp]
    congr 1
    omega
  | succ n ih =>
    intro i curr rt0 a rt hin hi2 hwf hcp hgo
    rw [List.range'_succ] at hgo
    rw [show FT_goTraverse p (i :: List.range' (i + 1) n) curr rt0 =
      (if curr.isFile then .error .notADirectory
       else
         match Node_hasChild curr (p.take i) with
         | (true, idx) =>
           match Node_getChild curr idx with
           | .ok child => FT_goTraverse p (List.range' (i + 1) n) child (rt0 ++ [idx])
           | .error st => .error st
         | (false, _) => .ok (curr, rt0)) from rfl] at hgo
    by_cases hcf : curr.isFile = true
    · rw [if_pos hcf] at hgo
      exact absurd hgo (by simp)
    rw [if_neg hcf] at hgo
    rw [Bool.not_eq_true] at hcf
    rw [show Node_hasChild curr (p.take i) =
      (hasKeyS (render (p.take i)) (curr.children.map nodeKey),
       lowerCountS (render (p.take i)) (curr.children.map nodeKey)) from by
      unfold Node_hasChild
      rw [if_neg (by rw [hcf]; exact Bool.false_ne_true)]] at hgo
    by_cases hfound : hasKeyS (render (p.take i)) (curr.children.map nodeKey) = true
    · rw [hfound] at hgo
      dsimp only at hgo
      have hq : pathOkB (p.take i) = true := pathOkB_take hp (by omega) (by omega)
      obtain ⟨child, hget, hmem, hcpath⟩ := wf_child_of_found hwf hcf hq hfound
      rw [show Node_getChild curr (lowerCountS (render (p.take i)) (curr.children.map nodeKey)) =
        .ok child from by
        unfold Node_getChild
        rw [if_neg (by rw [hcf]; exact Bool.false_ne_true), hget]] at hgo
      have hchwf : Node.wf child = true := (Node.wf_iff.mp hwf).2.2.2.2 child hmem
      have hcpath' : child.path = p.take ((i + 1) - 1) := by
        rw [hcpath]; congr 1
      obtain ⟨rt', hrt, hroute, hawf, hapath, hlo, hhi, hstop⟩ :=
        ih (i + 1) child (rt0 ++ [lowerCountS (render (p.take i)) (curr.children.map nodeKey)])
          a rt (by omega) (by omega) hchwf hcpath' hgo
      refine ⟨lowerCountS (render (p.take i)) (curr.children.map nodeKey) :: rt', ?_, ?_,
        hawf, hapath, by omega, hhi, hstop⟩
      · rw [hrt, List.append_assoc]; rfl
      · unfold nodeAtRoute
        rw [hget]
        exact hroute
    · rw [Bool.not_eq_true] at hfound
      rw [hfound] at hgo
      dsimp only at hgo
      obtain ⟨h1, h2⟩ : curr = a ∧ rt0 = rt := by
        have := Option.some.inj (congrArg (fun x => x.toOption) hgo)
        exact ⟨congrArg Prod.fst this, congrArg Prod.snd this⟩
      subst h1; subst h2
      have hlen : curr.path.length = i - 1 := by
        rw [hcp, List.length_take]
        omega
      refine ⟨[], by simp, rfl, hwf, ?_, by omega, by omega, ?_⟩
      · rw [hlen, hcp]
      · intro _
        refine ⟨hcf, ?_⟩
        rw [hlen, show i - 1 + 1 = i from by omega]
        exact hfound

/-- Completeness of the traversal loop: when a node with the full target
path exists in the subtree, the loop reaches it. -/
theorem goTraverse_complete (p : List String) (hp : pathOkB p = true) :
    ∀ (n i : Nat) (curr : Node) (rt0 : List Nat) (n0 : Node),
      i + n = p.length + 1 → 2 ≤ i →
      Node.wf curr = true → curr.path = p.take (i - 1) →
      n0 ∈ DT_preOrder curr → n0.path = p →
      ∃ a rt, FT_goTraverse p (List.range' i n) curr rt0 = .ok (a, rt) ∧ a.path = p := by
  intro n
  induction n with
  | zero =>
    intro i curr rt0 n0 hin hi2 hwf hcp _ _
    refine ⟨curr, rt0, rfl, ?_⟩
    rw [hcp, show i - 1 = p.length from by omega, List.take_length]
  | succ n ih =>
    intro i curr rt0 n0 hin hi2 hwf hcp hmem hpath
    have hcl : curr.path.length = i - 1 := by
      rw [hcp, List.length_take]
      omega
    have hne : n0 ≠ curr := by
      intro he
      rw [he] at hpath
      have := congrArg List.length hpath
      rw [hcl] at this
      omega
    rw [DT_preOrder_eq] at hmem
    rcases List.mem_cons.mp hmem with he | hmem'
    · exact absurd he hne
    rw [mem_preorderList] at hmem'
    obtain ⟨c, hc, hn0c⟩ := hmem'
    have hcf : curr.isFile = false := by
      by_contra hcf
      rw [Bool.not_eq_false] at hcf
      unfold Node.effChildren at hc
      rw [if_pos hcf] at hc
      simp at hc
    have hchc : c ∈ curr.children := by
      unfold Node.effChildren at hc
      rw [if_neg (by rw [hcf]; exact Bool.false_ne_true)] at hc
      exact hc
    have hcwf := (Node.wf_iff.mp hwf).2.2.2.2 c hchc
    have hclen : c.path.length = i := by
      have h1 := ((Node.wf_iff.mp hwf).2.2.1 c hchc).2
      rw [hcl] at h1
      omega
    have hcpath : c.path = p.take i := by
      have hext := (pathsOf_extend hcwf p (mem_pathsOf_iff.mpr ⟨n0, hn0c, hpath⟩)).1
      rw [hclen] at hext
      exact hext.symm
    have hfound : hasKeyS (render (p.take i)) (curr.children.map nodeKey) = true := by
      rw [hasKeyS_iff]
      exact List.mem_map.mpr ⟨c, hchc, by unfold nodeKey; rw [hcpath]⟩
    have hq : pathOkB (p.take i) = true := pathOkB_take hp (by omega) (by omega)
    obtain ⟨child, hget, hmemch, hchpath⟩ := wf_child_of_found hwf hcf hq hfound
    have hceq : child = c := by
      have hnd : (curr.children.map nodeKey).Nodup :=
        List.Pairwise.imp (fun h => ne_of_lt h) (Node.wf_iff.mp hwf).2.2.2.1
      exact List.inj_on_of_nodup_map hnd hmemch hchc
        (by unfold nodeKey; rw [hchpath, hcpath])
    have hchwf : Node.wf child = true := (Node.wf_iff.mp hwf).2.2.2.2 child hmemch
    rw [List.range'_succ,
      show FT_goTraverse p (i :: List.range' (i + 1) n) curr rt0 =
        (if curr.isFile then .error .notADirectory
         else
           match Node_hasChild curr (p.take i) with
           | (true, idx) =>
             match Node_getChild curr idx with
             | .ok child' => FT_goTraverse p (List.range' (i + 1) n) child' (rt0 ++ [idx])
             | .error st => .error st
           | (false, _) => .ok (curr, rt0)) from rfl,
      if_neg (by rw [hcf]; exact Bool.false_ne_true),
      show Node_hasChild curr (p.take i) =
        (hasKeyS (render (p.take i)) (curr.children.map nodeKey),
         lowerCountS (render (p.take i)) (curr.children.map nodeKey)) from by
        unfold Node_hasChild
        rw [if_neg (by rw [hcf]; exact Bool.false_ne_true)],
      hfound]
    dsimp only
    rw [show Node_getChild curr (lowerCountS (render (p.take i)) (curr.children.map nodeKey)) =
      .ok child from by
      unfold Node_getChild
      rw [if_neg (by rw [hcf]; exact Bool.false_ne_true), hget]]
    exact ih (i + 1) child
      (rt0 ++ [lowerCountS (render (p.take i)) (curr.children.map nodeKey)]) n0
      (by omega) (by omega) hchwf (by rw [hchpath]; congr 1) (hceq ▸ hn0c) hpath

theorem nodeAtRoute_mem : ∀ (rt : List Nat) {r a : Node}, Node.wf r = true →
    nodeAtRoute r rt = some a → a ∈ DT_preOrder r := by
  intro rt
  induction rt with
  | nil =>
    intro r a _ h
    cases (by simpa [nodeAtRoute] using h : r = a)
    exact self_mem_preorder r
  | cons i rt' ih =>
    intro r a hwf h
    unfold nodeAtRoute at h
    rcases hg : r.children.get? i with _ | child
    · rw [hg] at h; exact absurd h (by simp)
    rw [hg] at h
    have hmem : child ∈ r.children := List.get?_mem hg
    have hchwf : Node.wf child = true := (Node.wf_iff.mp hwf).2.2.2.2 child hmem
    have hrec := ih hchwf h
    rw [DT_preOrder_eq, Node.effChildren_eq_of_wf hwf]
    exact List.mem_cons_of_mem _ (mem_preorderList.mpr ⟨child, hmem, hrec⟩)

/-- Soundness of `FT_findNode`: a successful lookup yields the unique node
of the tree carrying the parsed path, together with a valid route. -/
theorem FT_findNode_char {s : FT} (hwfs : ∀ r, s.root = some r → Node.wf r = true)
    {str : String} {n0 : Node} {rt : List Nat}
    (h : FT_findNode s str = .ok (n0, rt)) :
    s.initialized = true ∧ ∃ p r, Path_new str = .ok p ∧ s.root = some r ∧
      n0 ∈ DT_preOrder r ∧ n0.path = p ∧ Node.wf n0 = true ∧
      nodeAtRoute r rt = some n0 := by
  unfold FT_findNode at h
  by_cases hinit : s.initialized = true
  swap
  · rw [if_pos (by rw [Bool.not_eq_true] at hinit; rw [hinit]; rfl)] at h
    exact absurd h (by simp)
  rw [if_neg (by rw [hinit]; simp)] at h
  refine ⟨hinit, ?_⟩
  rcases hparse : Path_new str with st | p
  · rw [hparse] at h; exact absurd h (by simp)
  rw [hparse] at h
  dsimp only at h
  have hp : pathOkB p = true := Path_new_ok hparse
  have hp1 : 1 ≤ p.length := by
    rcases pathOkB_iff.mp hp with ⟨hne, _⟩
    cases p with
    | nil => exact absurd rfl hne
    | cons a t => simp
  rcases hroot : s.root with _ | r
  · rw [hroot, show FT_traversePath none p = Except.ok none from rfl] at h
    exact absurd h (by simp)
  have hwf : Node.wf r = true := hwfs r hroot
  rw [hroot, show FT_traversePath (some r) p =
    (if render r.path ≠ render (p.take 1) then .error .conflictingPath
     else
       match FT_goTraverse p (List.range' 2 (p.length - 1)) r [] with
       | .ok res => .ok (some res)
       | .error st => .error st) from rfl] at h
  by_cases hpre : render r.path = render (p.take 1)
  swap
  · rw [if_pos (by exact hpre)] at h
    exact absurd h (by simp)
  rw [if_neg (by rw [hpre]; simp)] at h
  have hrpath : r.path = p.take 1 := by
    apply render_inj (pathOkB_iff.mp (Node.wf_iff.mp hwf).1).2
      (pathOkB_iff.mp (pathOkB_take hp (by omega) (by omega))).2 hpre
  rcases hgo : FT_goTraverse p (List.range' 2 (p.length - 1)) r [] with st | ares
  · rw [hgo] at h; exact absurd h (by simp)
  rw [hgo] at h
  obtain ⟨a, art⟩ := ares
  obtain ⟨rt', hrtphantom, hroute, hawf, hapath, _, hhi, _⟩ :=
    goTraverse_sound p hp (p.length - 1) 2 r [] a art (by omega) (by omega) hwf
      (by rw [hrpath]) hgo
  dsimp only at h
  by_cases hfin : render a.path = render p
  swap
  · rw [if_pos (by exact hfin)] at h
    exact absurd h (by simp)
  rw [if_neg (by rw [hfin]; simp)] at h
  obtain ⟨ha, hart⟩ : a = n0 ∧ art = rt := by
    have := Option.some.inj (congrArg (fun x => x.toOption) h)
    exact ⟨congrArg Prod.fst this, congrArg Prod.snd this⟩
  subst ha
  subst hart
  have hrteq : art = rt' := by simpa using hrtphantom
  subst hrteq
  have hlen : a.path.length = p.length := by
    apply render_take_eq (pathOkB_iff.mp hp).2 hhi
    rw [← hapath]
    exact hfin
  have hfull : a.path = p := by
    rw [hapath, hlen, List.take_length]
  exact ⟨p, r, rfl, rfl, nodeAtRoute_mem art hwf hroute, hfull, hawf, hroute⟩

/-- Completeness of `FT_findNode`: on an initialized state whose root is a
well-formed depth-1 tree, any node of the tree is found by its path. -/
theorem FT_findNode_complete {s : FT} {r : Node} (hroot : s.root = some r)
    (hwf : Node.wf r = true) (hr1 : r.path.length = 1)
    (hinit : s.initialized = true) {str : String} {p : List String}
    (hparse : Path_new str = .ok p) {n0 : Node}
    (hn0 : n0 ∈ DT_preOrder r) (hn0p : n0.path = p) :
    ∃ rt, FT_findNode s str = .ok (n0, rt) := by
  have hp : pathOkB p = true := Path_new_ok hparse
  have hp1 : 1 ≤ p.length := by
    rcases pathOkB_iff.mp hp with ⟨hne, _⟩
    cases p with
    | nil => exact absurd rfl hne
    | cons a t => simp
  have hrpath : r.path = p.take 1 := by
    have hext := (pathsOf_extend hwf p (mem_pathsOf_iff.mpr ⟨n0, hn0, hn0p⟩)).1
    rw [hr1] at hext
    exact hext.symm
  obtain ⟨a, rt, hgo, hapath⟩ :=
    goTraverse_complete p hp (p.length - 1) 2 r [] n0 (by omega) (by omega) hwf
      (by rw [hrpath]) hn0 hn0p
  obtain ⟨rt', hrt0, hroute, hawf, _, _, _, _⟩ :=
    goTraverse_sound p hp (p.length - 1) 2 r [] a rt (by omega) (by omega) hwf
      (by rw [hrpath]) hgo
  have hrteq : rt = rt' := by simpa using hrt0
  subst hrteq
  have haeq : a = n0 := by
    apply node_unique_by_path hwf (nodeAtRoute_mem rt hwf hroute) hn0
    rw [hapath, hn0p]
  refine ⟨rt, ?_⟩
  unfold FT_findNode
  rw [if_neg (by rw [hinit]; simp), hparse]
  dsimp only
  rw [hroot, show FT_traversePath (some r) p =
    (if render r.path ≠ render (p.take 1) then .error .conflictingPath
     else
       match FT_goTraverse p (List.range' 2 (p.length - 1)) r [] with
       | .ok res => .ok (some res)
       | .error st => .error st) from rfl,
    if_neg (by rw [hrpath]; simp), hgo]
  dsimp only
  rw [if_neg (by rw [hapath]; simp), haeq]

/-! ### Chain-building lemmas -/

theorem sharedPrefixDepth_take : ∀ (l : List String) (j : Nat),
    sharedPrefixDepth l (l.take j) = min j l.length := by
  intro l
  induction l with
  | nil => intro j; simp [sharedPrefixDepth]
  | cons a t ih =>
    intro j
    cases j with
    | zero => simp [sharedPrefixDepth]
    | succ m =>
      rw [List.take_succ_cons,
        show sharedPrefixDepth (a :: t) (a :: t.take m) =
          (if a = a then sharedPrefixDepth t (t.take m) + 1 else 0) from rfl,
        if_pos rfl, ih]
      simp [Nat.succ_min_succ]

theorem wf_leaf {q : List String} (hq : pathOkB q = true) (fl : Bool)
    (c0 : Option (List Nat)) (l0 : Nat) : Node.wf (Node.mk q fl c0 l0 []) = true := by
  rw [Node.wf_iff]
  simp [hq]

theorem Node_addChild_path (par nd : Node) (idx : Nat) :
    (Node_addChild par nd idx).path = par.path := by
  cases par; rfl

theorem Node_addChild_isFile (par nd : Node) (idx : Nat) :
    (Node_addChild par nd idx).isFile = par.isFile := by
  cases par; rfl

theorem Node_addChild_children (par nd : Node) (idx : Nat) :
    (Node_addChild par nd idx).children = insertAt idx nd par.children := by
  cases par; rfl

theorem setChildAt_addChild (par nd x : Node) (idx : Nat)
    (h : idx ≤ par.children.length) :
    Node.setChildAt (Node_addChild par nd idx) idx x = Node_addChild par x idx := by
  cases par with
  | mk p f c l ch =>
    show Node.mk p f c l ((insertAt idx nd ch).set idx x) = Node.mk p f c l (insertAt idx x ch)
    rw [set_insertAt (by simpa using h)]

theorem self_path_mem (n : Node) : n.path ∈ Node.pathsOf n :=
  mem_pathsOf_iff.mpr ⟨n, self_mem_preorder n, rfl⟩

/-- Specification of the chain-building loop: the subtree root it returns
keeps its path and kind, stays well-formed, loses no paths, and on success
contains the full target path.  The hypotheses state the situation the
callers establish: the loop starts one level below the current node's
depth, the current node is a directory without a child at the next level
(when any level remains). -/
theorem buildLoop_spec (alloc : Nat → Bool) (p : List String) (fIns : Bool)
    (contents : Option (List Nat)) (clen : Nat) (hp : pathOkB p = true) :
    ∀ (n i : Nat) (curr : Node),
      i + n = p.length + 1 → 2 ≤ i →
      Node.wf curr = true → curr.path = p.take (i - 1) →
      (0 < n → curr.isFile = false) →
      (0 < n → hasKeyS (render (p.take i)) (curr.children.map nodeKey) = false) →
      (FT_buildLoop alloc p p.length fIns contents clen (List.range' i n) curr).2.1.path
        = curr.path ∧
      (FT_buildLoop alloc p p.length fIns contents clen (List.range' i n) curr).2.1.isFile
        = curr.isFile ∧
      Node.wf (FT_buildLoop alloc p p.length fIns contents clen (List.range' i n) curr).2.1
        = true ∧
      (∀ q ∈ Node.pathsOf curr,
        q ∈ Node.pathsOf
          (FT_buildLoop alloc p p.length fIns contents clen (List.range' i n) curr).2.1) ∧
      ((FT_buildLoop alloc p p.length fIns contents clen (List.range' i n) curr).1 = .success →
        p ∈ Node.pathsOf
          (FT_buildLoop alloc p p.length fIns contents clen (List.range' i n) curr).2.1) := by
  intro n
  induction n with
  | zero =>
    intro i curr hin hi2 hwf hcp _ _
    rw [show List.range' i 0 = [] from rfl]
    rw [show FT_buildLoop alloc p p.length fIns contents clen [] curr = (.success, curr, 0)
      from rfl]
    refine ⟨rfl, rfl, hwf, fun q hq => hq, fun _ => ?_⟩
    have : curr.path = p := by
      rw [hcp, show i - 1 = p.length from by omega, List.take_length]
    rw [← this]
    exact self_path_mem curr
  | succ n ih =>
    intro i curr hin hi2 hwf hcp hcf hnk
    have hcf' := hcf (by omega)
    have hnk' := hnk (by omega)
    have hile : i ≤ p.length := by omega
    have hq : pathOkB (p.take i) = true := pathOkB_take hp (by omega) (by omega)
    have hcl : curr.path.length = i - 1 := by
      rw [hcp, List.length_take]
      omega
    rw [List.range'_succ]
    rw [show FT_buildLoop alloc p p.length fIns contents clen
        (i :: List.range' (i + 1) n) curr =
      (if curr.isFile then (.notADirectory, curr, 0)
       else
         let bIsFinal := fIns && (i == p.length)
         let r := Node_new (alloc i) (p.take i) (some curr) bIsFinal
                    (if bIsFinal then contents else none) (if bIsFinal then clen else 0)
         match r.status, r.result, r.parentAfter with
         | .success, some newNode, some currAfter =>
           let res := FT_buildLoop alloc p p.length fIns contents clen
                        (List.range' (i + 1) n) newNode
           (res.1, Node.setChildAt currAfter r.insIdx res.2.1, res.2.2 + 1)
         | st, _, _ => (st, curr, 0)) from rfl,
      if_neg (by rw [hcf']; exact Bool.false_ne_true)]
    dsimp only
    by_cases halloc : alloc i = true
    swap
    · rw [show Node_new (alloc i) (p.take i) (some curr) (fIns && (i == p.length))
          (if fIns && (i == p.length) then contents else none)
          (if fIns && (i == p.length) then clen else 0) =
        ⟨.memoryError, none, some curr, 0⟩ from by
        unfold Node_new
        rw [Bool.not_eq_true] at halloc
        rw [if_pos (by rw [halloc]; rfl)]]
      dsimp only
      exact ⟨rfl, rfl, hwf, fun q hq => hq, fun h => absurd h (by simp)⟩
    · have hnewnode : Node_new (alloc i) (p.take i) (some curr) (fIns && (i == p.length))
          (if fIns && (i == p.length) then contents else none)
          (if fIns && (i == p.length) then clen else 0) =
        ⟨.success,
         some (Node.mk (p.take i) (fIns && (i == p.length))
           (if (fIns && (i == p.length)) then
              (if (if fIns && (i == p.length) then clen else 0) > 0 &&
                  (if fIns && (i == p.length) then contents else none).isSome then
                (if fIns && (i == p.length) then contents else none) else none) else none)
           (if (fIns && (i == p.length)) then (if fIns && (i == p.length) then clen else 0) else 0)
           []),
         some (Node_addChild curr
           (Node.mk (p.take i) (fIns && (i == p.length))
             (if (fIns && (i == p.length)) then
                (if (if fIns && (i == p.length) then clen else 0) > 0 &&
                    (if fIns && (i == p.length) then contents else none).isSome then
                  (if fIns && (i == p.length) then contents else none) else none) else none)
             (if (fIns && (i == p.length)) then (if fIns && (i == p.length) then clen else 0) else 0)
             [])
           (lowerCountS (render (p.take i)) (curr.children.map nodeKey))),
         lowerCountS (render (p.take i)) (curr.children.map nodeKey)⟩ := by
        unfold Node_new
        rw [if_neg (by rw [halloc]; simp)]
        dsimp only
        rw [if_neg (by
            rw [hcp, show (p.take (i - 1)) = (p.take i).take (i - 1) from by
              rw [List.take_take, Nat.min_eq_left (by omega)],
              sharedPrefixDepth_take]
            simp only [List.length_take]
            omega),
          if_neg (by
            simp only [List.length_take]
            omega),
          if_neg (by rw [hcf']; exact Bool.false_ne_true)]
        rw [show Node_hasChild curr (p.take i) =
          (hasKeyS (render (p.take i)) (curr.children.map nodeKey),
           lowerCountS (render (p.take i)) (curr.children.map nodeKey)) from by
          unfold Node_hasChild
          rw [if_neg (by rw [hcf']; exact Bool.false_ne_true)]]
        rw [show (hasKeyS (render (p.take i)) (curr.children.map nodeKey),
           lowerCountS (render (p.take i)) (curr.children.map nodeKey)).1 =
           hasKeyS (render (p.take i)) (curr.children.map nodeKey) from rfl, hnk']
        rw [if_neg (by simp)]
      rw [hnewnode]
      dsimp only
      set newNode := Node.mk (p.take i) (fIns && (i == p.length))
        (if (fIns && (i == p.length)) then
           (if (if fIns && (i == p.length) then clen else 0) > 0 &&
               (if fIns && (i == p.length) then contents else none).isSome then
             (if fIns && (i == p.length) then contents else none) else none) else none)
        (if (fIns && (i == p.length)) then (if fIns && (i == p.length) then clen else 0) else 0)
        [] with hnewdef
      have hnnwf : Node.wf newNode = true := by
        rw [hnewdef]
        exact wf_leaf hq _ _ _
      have hnnpath : newNode.path = p.take i := by rw [hnewdef]; rfl
      have hnnch : newNode.children = [] := by rw [hnewdef]; rfl
      have hidx : lowerCountS (render (p.take i)) (curr.children.map nodeKey) ≤
          curr.children.length := by
        have := @lowerCountS_le_length (render (p.take i))
          (curr.children.map nodeKey)
        simpa using this
      obtain ⟨rpath, rfile, rwf, rsub, rsucc⟩ := ih (i + 1) newNode (by omega) (by omega)
        hnnwf (by rw [hnnpath]; congr 1)
        (by
          intro hn
          rw [hnewdef]
          simp only [Node.isFile_mk]
          have : (i == p.length) = false := by
            rw [beq_eq_false_iff_ne]
            omega
          rw [this, Bool.and_false])
        (by
          intro hn
          rw [hnnch]
          rfl)
      rw [setChildAt_addChild curr newNode _ _ hidx]
      have hrespath : (FT_buildLoop alloc p p.length fIns contents clen
          (List.range' (i + 1) n) newNode).2.1.path = p.take i := by
        rw [rpath, hnnpath]
      refine ⟨?_, ?_, ?_, ?_, ?_⟩
      · rw [Node_addChild_path]
      · rw [Node_addChild_isFile]
      · have hkeyeq : lowerCountS (render (p.take i)) (curr.children.map nodeKey) =
            lowerCountS (render (FT_buildLoop alloc p p.length fIns contents clen
              (List.range' (i + 1) n) newNode).2.1.path) (curr.children.map nodeKey) := by
          rw [hrespath]
        rw [hkeyeq]
        apply wf_addChild hwf hcf' rwf
        · rw [hrespath, hcl, hcp, List.take_take, Nat.min_eq_left (by omega)]
        · rw [hrespath, List.length_take, hcl]
          omega
        · rw [show render (FT_buildLoop alloc p p.length fIns contents clen
            (List.range' (i + 1) n) newNode).2.1.path = render (p.take i) from by
            rw [hrespath]]
          exact hnk'
      · intro q hqmem
        rw [show Node_addChild curr (FT_buildLoop alloc p p.length fIns contents clen
            (List.range' (i + 1) n) newNode).2.1
            (lowerCountS (render (p.take i)) (curr.children.map nodeKey)) =
          Node_addChild curr _ _ from rfl]
        rw [mem_pathsOf_addChild hcf' hidx]
        exact Or.inl hqmem
      · intro hst
        rw [mem_pathsOf_addChild hcf' hidx]
        exact Or.inr (rsucc hst)

/-! ### State-level lemmas -/

theorem traversePath_some_sound {rv : Node} {p : List String} {anchor : Node}
    {route : List Nat} (hwf : Node.wf rv = true) (hp : pathOkB p = true)
    (hp1 : 1 ≤ p.length)
    (h : FT_traversePath (some rv) p = .ok (some (anchor, route))) :
    nodeAtRoute rv route = some anchor ∧ Node.wf anchor = true ∧
    anchor.path = p.take anchor.path.length ∧ 1 ≤ anchor.path.length ∧
    anchor.path.length ≤ p.length ∧
    (anchor.path.length < p.length →
      anchor.isFile = false ∧
      hasKeyS (render (p.take (anchor.path.length + 1)))
        (anchor.children.map nodeKey) = false) ∧
    rv.path = p.take 1 := by
  rw [show FT_traversePath (some rv) p =
    (if render rv.path ≠ render (p.take 1) then .error .conflictingPath
     else
       match FT_goTraverse p (List.range' 2 (p.length - 1)) rv [] with
       | .ok res => .ok (some res)
       | .error st => .error st) from rfl] at h
  by_cases hpre : render rv.path = render (p.take 1)
  swap
  · rw [if_pos (by exact hpre)] at h
    exact absurd h (by simp)
  rw [if_neg (by rw [hpre]; simp)] at h
  have hrpath : rv.path = p.take 1 :=
    render_inj (pathOkB_iff.mp (Node.wf_iff.mp hwf).1).2
      (pathOkB_iff.mp (pathOkB_take hp (by omega) (by omega))).2 hpre
  rcases hgo : FT_goTraverse p (List.range' 2 (p.length - 1)) rv [] with st | ares
  · rw [hgo] at h; exact absurd h (by simp)
  rw [hgo] at h
  obtain ⟨a, art⟩ := ares
  obtain ⟨ha, hart⟩ : a = anchor ∧ art = route := by
    have h2 := Option.some.inj (by simpa using h : some (some (a, art)) = some (some (anchor, route)))
    have h3 := Option.some.inj h2
    exact ⟨congrArg Prod.fst h3, congrArg Prod.snd h3⟩
  subst ha
  subst hart
  obtain ⟨rt', hrt0, hroute, hawf, hapath, hlo, hhi, hstop⟩ :=
    goTraverse_sound p hp (p.length - 1) 2 rv [] a art (by omega) (by omega) hwf
      (by rw [hrpath]) hgo
  have hrteq : art = rt' := by simpa using hrt0
  subst hrteq
  exact ⟨hroute, hawf, hapath, by omega, hhi, hstop, hrpath⟩

theorem nodeAtRoute_split_last : ∀ (rt : List Nat) (r a : Node), rt ≠ [] →
    nodeAtRoute r rt = some a →
    ∃ par j, nodeAtRoute r rt.dropLast = some par ∧ par.children.get? j = some a := by
  intro rt
  induction rt with
  | nil => intro r a hne _; exact absurd rfl hne
  | cons x rest ih =>
    intro r a _ h
    unfold nodeAtRoute at h
    rcases hg : r.children.get? x with _ | c
    · rw [hg] at h; exact absurd h (by simp)
    rw [hg] at h
    cases rest with
    | nil =>
      refine ⟨r, x, rfl, ?_⟩
      rw [hg]
      exact congrArg some (by simpa [nodeAtRoute] using h)
    | cons y rest' =>
      obtain ⟨par, j, hpar, hget⟩ := ih c a (by simp) h
      refine ⟨par, j, ?_, hget⟩
      rw [show (x :: y :: rest').dropLast = x :: (y :: rest').dropLast from rfl]
      unfold nodeAtRoute
      rw [hg]
      exact hpar

theorem Path_new_error {str : String} {st : FTStatus}
    (h : Path_new str = .error st) : st = .badPath := by
  unfold Path_new at h
  split at h
  · dsimp only at h
    split at h
    · exact absurd h (by simp)
    · cases h; rfl
  · cases h; rfl

theorem Node_getChild_error {n : Node} {i : Nat} {st : FTStatus}
    (h : Node_getChild n i = .error st) : st = .notADirectory ∨ st = .noSuchPath := by
  unfold Node_getChild at h
  split at h
  · have h2 : FTStatus.notADirectory = st := by simpa using h
    exact Or.inl h2.symm
  · split at h
    · exact absurd h (by simp)
    · have h2 : FTStatus.noSuchPath = st := by simpa using h
      exact Or.inr h2.symm

theorem goTraverse_error_ne_success (p : List String) :
    ∀ (lv : List Nat) (curr : Node) (rt0 : List Nat) (st : FTStatus),
      FT_goTraverse p lv curr rt0 = .error st → st ≠ .success := by
  intro lv
  induction lv with
  | nil =>
    intro curr rt0 st h
    rw [show FT_goTraverse p [] curr rt0 = .ok (curr, rt0) from rfl] at h
    exact absurd h (by simp)
  | cons i rest ih =>
    intro curr rt0 st h
    rw [show FT_goTraverse p (i :: rest) curr rt0 =
      (if curr.isFile then .error .notADirectory
       else
         match Node_hasChild curr (p.take i) with
         | (true, idx) =>
           match Node_getChild curr idx with
           | .ok child => FT_goTraverse p rest child (rt0 ++ [idx])
           | .error st => .error st
         | (false, _) => .ok (curr, rt0)) from rfl] at h
    split at h
    · cases (by simpa using h : FTStatus.notADirectory = st)
      simp
    · split at h
      next idx heq =>
        rcases hgc : Node_getChild curr idx with st2 | child
        · rw [hgc] at h
          have h2 : st2 = st := by simpa using h
          subst h2
          rcases Node_getChild_error hgc with h3 | h3 <;> (subst h3; simp)
        · rw [hgc] at h
          exact ih child (rt0 ++ [idx]) st h
      next => exact absurd h (by simp)

theorem traversePath_error_ne_success {root : Option Node} {p : List String}
    {st : FTStatus} (h : FT_traversePath root p = .error st) : st ≠ .success := by
  rcases root with _ | r
  · rw [show FT_traversePath none p = .ok none from rfl] at h
    exact absurd h (by simp)
  rw [show FT_traversePath (some r) p =
    (if render r.path ≠ render (p.take 1) then .error .conflictingPath
     else
       match FT_goTraverse p (List.range' 2 (p.length - 1)) r [] with
       | .ok res => .ok (some res)
       | .error st => .error st) from rfl] at h
  split at h
  · cases (by simpa using h : FTStatus.conflictingPath = st)
    simp
  · rcases hgo : FT_goTraverse p (List.range' 2 (p.length - 1)) r [] with st2 | ares
    · rw [hgo] at h
      cases (by simpa using h : st2 = st)
      exact goTraverse_error_ne_success p _ r [] st hgo
    · rw [hgo] at h
      exact absurd h (by simp)

/-- What one `FT_insertDir` call guarantees: the root stays well-formed,
the initialization flag is untouched, no path disappears, and on success
the parsed target path is present afterwards. -/
theorem FT_insertDir_spec {s : FT} {alloc : Nat → Bool} {str : String}
    (hwfs : ∀ r, s.root = some r → Node.wf r = true)
    {st : FTStatus} {s' : FT} (h : FT_insertDir s alloc str = (st, s')) :
    (∀ r', s'.root = some r' → Node.wf r' = true) ∧
    s'.initialized = s.initialized ∧
    (∀ q ∈ FT.paths s, q ∈ FT.paths s') ∧
    (st = .success → ∃ p, Path_new str = .ok p ∧ p ∈ FT.paths s') := by
  unfold FT_insertDir at h
  by_cases hinit : s.initialized = true
  swap
  · rw [if_pos (by rw [Bool.not_eq_true] at hinit; rw [hinit]; rfl)] at h
    cases h
    exact ⟨hwfs, rfl, fun q hq => hq, fun hsucc => absurd hsucc (by simp)⟩
  rw [if_neg (by rw [hinit]; simp)] at h
  rcases hparse : Path_new str with st2 | p
  · rw [hparse] at h
    dsimp only at h
    cases h
    refine ⟨hwfs, rfl, fun q hq => hq, fun hsucc => ?_⟩
    rw [Path_new_error hparse] at hsucc
    exact absurd hsucc (by simp)
  rw [hparse] at h
  dsimp only at h
  have hp : pathOkB p = true := Path_new_ok hparse
  have hp1 : 1 ≤ p.length := by
    rcases pathOkB_iff.mp hp with ⟨hne, _⟩
    cases p with
    | nil => exact absurd rfl hne
    | cons a t => simp
  rcases htrav : FT_traversePath s.root p with st2 | aopt
  · rw [htrav] at h
    cases h
    refine ⟨hwfs, rfl, fun q hq => hq, fun hsucc => ?_⟩
    subst hsucc
    exact absurd rfl (traversePath_error_ne_success htrav)
  rw [htrav] at h
  rcases aopt with _ | ⟨anchor, route⟩
  · -- no anchor: fresh root or conflict
    dsimp only at h
    rcases hroot : s.root with _ | rv
    swap
    · rw [hroot] at h
      dsimp only at h
      cases h
      exact ⟨hwfs, rfl, fun q hq => hq, fun hsucc => absurd hsucc (by simp)⟩
    rw [hroot] at h
    dsimp only at h
    by_cases halloc : alloc 1 = true
    swap
    · rw [show Node_new (alloc 1) (p.take 1) none false none 0 =
        ⟨.memoryError, none, none, 0⟩ from by
        unfold Node_new
        rw [Bool.not_eq_true] at halloc
        rw [if_pos (by rw [halloc]; rfl)]] at h
      dsimp only at h
      cases h
      exact ⟨hwfs, rfl, fun q hq => hq, fun hsucc => absurd hsucc (by simp)⟩
    rw [show Node_new (alloc 1) (p.take 1) none false none 0 =
      ⟨.success, some (Node.mk (p.take 1) false none 0 []), none, 0⟩ from by
      unfold Node_new
      rw [if_neg (by rw [halloc]; simp)]
      dsimp only
      rw [if_neg (by
        simp only [List.length_take]
        omega)]
      rfl] at h
    dsimp only at h
    rcases hbl : FT_buildLoop alloc p p.length false none 0
        (List.range' 2 (p.length - 1)) (Node.mk (p.take 1) false none 0 []) with ⟨blst, bln, blk⟩
    rw [hbl] at h
    dsimp only at h
    by_cases hblst : blst = .success
    · rw [if_pos hblst] at h
      cases h
      refine ⟨?_, rfl, ?_, ?_⟩
      · intro r' hr'
        cases Option.some.inj hr'
        apply wf_leaf
        rw [List.take_length]
        exact hp
      · intro q hq
        unfold FT.paths at hq
        rw [hroot] at hq
        simp [DT_preOrderOpt] at hq
      · intro _
        refine ⟨p, rfl, ?_⟩
        unfold FT.paths
        dsimp only
        rw [show Node.mk (p.take p.length) false none 0 [] =
          Node.mk p false none 0 [] from by rw [List.take_length]]
        exact self_path_mem (Node.mk p false none 0 [])
    · rw [if_neg hblst] at h
      cases h
      exact ⟨hwfs, rfl, fun q hq => hq, fun hsucc => absurd hsucc hblst⟩
  · -- anchor exists
    dsimp only at h
    rcases hroot : s.root with _ | rv
    · rw [hroot] at h
      dsimp only at h
      cases h
      refine ⟨hwfs, rfl, fun q hq => hq, fun hsucc => absurd hsucc (by simp)⟩
    rw [hroot] at h
    dsimp only at h
    have hwfr : Node.wf rv = true := hwfs rv hroot
    rw [hroot] at htrav
    obtain ⟨hroute, hawf, hapath, halo, hahi, hastop, hrvpath⟩ :=
      traversePath_some_sound hwfr hp hp1 htrav
    by_cases halready : (anchor.path.length + 1 == p.length + 1 &&
        render p == render anchor.path) = true
    · rw [if_pos halready] at h
      cases h
      exact ⟨hwfs, rfl, fun q hq => hq, fun hsucc => absurd hsucc (by simp)⟩
    rw [if_neg halready] at h
    have hklt : anchor.path.length < p.length := by
      rcases Nat.lt_or_ge anchor.path.length p.length with hlt | hge
      · exact hlt
      · exfalso
        have hkeq : anchor.path.length = p.length := by omega
        have hfull : anchor.path = p := by
          rw [hapath, hkeq, List.take_length]
        apply halready
        rw [hkeq, hfull]
        simp
    obtain ⟨hanf, hank⟩ := hastop hklt
    rcases hbl : FT_buildLoop alloc p p.length false none 0
        (List.range' (anchor.path.length + 1) (p.length + 1 - (anchor.path.length + 1)))
        anchor with ⟨blst, bln, blk⟩
    rw [hbl] at h
    dsimp only at h
    obtain ⟨blpath, blfile, blwf, blsub, blsucc⟩ :=
      buildLoop_spec alloc p false none 0 hp (p.length + 1 - (anchor.path.length + 1))
        (anchor.path.length + 1) anchor (by omega) (by omega) hawf
        (by rw [show anchor.path.length + 1 - 1 = anchor.path.length from by omega]
            exact hapath)
        (fun _ => hanf)
        (fun _ => hank)
    rw [hbl] at blpath blfile blwf blsub blsucc
    dsimp only at blpath blfile blwf blsub blsucc
    obtain ⟨pre, post, hsplit, hupd⟩ := pathsOf_updAt route rv anchor hwfr hroute
    have hwfnew : Node.wf (Node.updAt rv route (fun _ => bln)) = true := by
      apply wf_updAt route rv anchor hwfr hroute _ blwf
      rw [blpath]
    have hpathsnew : Node.pathsOf (Node.updAt rv route (fun _ => bln)) =
        pre ++ Node.pathsOf bln ++ post := hupd _
    have hmono : ∀ q ∈ FT.paths s, q ∈ Node.pathsOf (Node.updAt rv route (fun _ => bln)) := by
      intro q hq
      unfold FT.paths at hq
      rw [hroot] at hq
      have hq' : q ∈ Node.pathsOf rv := hq
      rw [hsplit] at hq'
      rw [hpathsnew]
      simp only [List.mem_append] at hq' ⊢
      rcases hq' with (hq' | hq') | hq'
      · exact Or.inl (Or.inl hq')
      · exact Or.inl (Or.inr (blsub q hq'))
      · exact Or.inr hq'
    by_cases hblst : blst = .success
    · rw [if_pos hblst] at h
      cases h
      refine ⟨?_, rfl, ?_, ?_⟩
      · intro r' hr'
        cases Option.some.inj hr'
        exact hwfnew
      · intro q hq
        exact hmono q hq
      · intro _
        refine ⟨p, rfl, ?_⟩
        show p ∈ Node.pathsOf (Node.updAt rv route (fun _ => bln))
        rw [hpathsnew]
        simp only [List.mem_append]
        exact Or.inl (Or.inr (blsucc hblst))
    · rw [if_neg hblst] at h
      cases h
      refine ⟨?_, rfl, ?_, ?_⟩
      · intro r' hr'
        cases Option.some.inj hr'
        exact hwfnew
      · intro q hq
        exact hmono q hq
      · intro hsucc
        exact absurd hsucc hblst

/-- What one `FT_insertFile` call guarantees, mirroring
`FT_insertDir_spec`. -/
theorem FT_insertFile_spec {s : FT} {alloc : Nat → Bool} {str : String}
    {contents : Option (List Nat)} {clen : Nat}
    (hwfs : ∀ r, s.root = some r → Node.wf r = true)
    {st : FTStatus} {s' : FT} (h : FT_insertFile s alloc str contents clen = (st, s')) :
    (∀ r', s'.root = some r' → Node.wf r' = true) ∧
    s'.initialized = s.initialized ∧
    (∀ q ∈ FT.paths s, q ∈ FT.paths s') ∧
    (st = .success → ∃ p, Path_new str = .ok p ∧ p ∈ FT.paths s') := by
  unfold FT_insertFile at h
  by_cases hinit : s.initialized = true
  swap
  · rw [if_pos (by rw [Bool.not_eq_true] at hinit; rw [hinit]; rfl)] at h
    cases h
    exact ⟨hwfs, rfl, fun q hq => hq, fun hsucc => absurd hsucc (by simp)⟩
  rw [if_neg (by rw [hinit]; simp)] at h
  rcases hparse : Path_new str with st2 | p
  · rw [hparse] at h
    dsimp only at h
    cases h
    refine ⟨hwfs, rfl, fun q hq => hq, fun hsucc => ?_⟩
    rw [Path_new_error hparse] at hsucc
    exact absurd hsucc (by simp)
  rw [hparse] at h
  dsimp only at h
  have hp : pathOkB p = true := Path_new_ok hparse
  have hp1 : 1 ≤ p.length := by
    rcases pathOkB_iff.mp hp with ⟨hne, _⟩
    cases p with
    | nil => exact absurd rfl hne
    | cons a t => simp
  rcases hroot : s.root with _ | rv
  · rw [hroot] at h
    dsimp only at h
    cases h
    exact ⟨hwfs, rfl, fun q hq => hq, fun hsucc => absurd hsucc (by simp)⟩
  rw [hroot] at h
  dsimp only at h
  rcases htrav : FT_traversePath (some rv) p with st2 | aopt
  · rw [htrav] at h
    cases h
    refine ⟨hwfs, rfl, fun q hq => hq, fun hsucc => ?_⟩
    subst hsucc
    exact absurd rfl (traversePath_error_ne_success htrav)
  rw [htrav] at h
  rcases aopt with _ | ⟨anchor, route⟩
  · dsimp only at h
    cases h
    exact ⟨hwfs, rfl, fun q hq => hq, fun hsucc => absurd hsucc (by simp)⟩
  dsimp only at h
  have hwfr : Node.wf rv = true := hwfs rv hroot
  obtain ⟨hroute, hawf, hapath, halo, hahi, hastop, hrvpath⟩ :=
    traversePath_some_sound hwfr hp hp1 htrav
  by_cases halready : (anchor.path.length + 1 == p.length + 1 &&
      render p == render anchor.path) = true
  · rw [if_pos halready] at h
    cases h
    exact ⟨hwfs, rfl, fun q hq => hq, fun hsucc => absurd hsucc (by simp)⟩
  rw [if_neg halready] at h
  rw [if_neg (by
    intro hdead
    rw [Bool.and_eq_true] at hdead
    have h1 : anchor.path.length + 1 = 1 := by simpa using hdead.1
    omega)] at h
  have hklt : anchor.path.length < p.length := by
    rcases Nat.lt_or_ge anchor.path.length p.length with hlt | hge
    · exact hlt
    · exfalso
      have hkeq : anchor.path.length = p.length := by omega
      have hfull : anchor.path = p := by
        rw [hapath, hkeq, List.take_length]
      apply halready
      rw [hkeq, hfull]
      simp
  obtain ⟨hanf, hank⟩ := hastop hklt
  rcases hbl : FT_buildLoop alloc p p.length true contents clen
      (List.range' (anchor.path.length + 1) (p.length + 1 - (anchor.path.length + 1)))
      anchor with ⟨blst, bln, blk⟩
  rw [hbl] at h
  dsimp only at h
  obtain ⟨blpath, blfile, blwf, blsub, blsucc⟩ :=
    buildLoop_spec alloc p true contents clen hp (p.length + 1 - (anchor.path.length + 1))
      (anchor.path.length + 1) anchor (by omega) (by omega) hawf
      (by rw [show anchor.path.length + 1 - 1 = anchor.path.length from by omega]
          exact hapath)
      (fun _ => hanf)
      (fun _ => hank)
  rw [hbl] at blpath blfile blwf blsub blsucc
  dsimp only at blpath blfile blwf blsub blsucc
  obtain ⟨pre, post, hsplit, hupd⟩ := pathsOf_updAt route rv anchor hwfr hroute
  have hwfnew : Node.wf (Node.updAt rv route (fun _ => bln)) = true := by
    apply wf_updAt route rv anchor hwfr hroute _ blwf
    rw [blpath]
  have hpathsnew : Node.pathsOf (Node.updAt rv route (fun _ => bln)) =
      pre ++ Node.pathsOf bln ++ post := hupd _
  have hmono : ∀ q ∈ FT.paths s, q ∈ Node.pathsOf (Node.updAt rv route (fun _ => bln)) := by
    intro q hq
    unfold FT.paths at hq
    rw [hroot] at hq
    have hq' : q ∈ Node.pathsOf rv := hq
    rw [hsplit] at hq'
    rw [hpathsnew]
    simp only [List.mem_append] at hq' ⊢
    rcases hq' with (hq' | hq') | hq'
    · exact Or.inl (Or.inl hq')
    · exact Or.inl (Or.inr (blsub q hq'))
    · exact Or.inr hq'
  by_cases hblst : blst = .success
  · rw [if_pos hblst] at h
    cases h
    refine ⟨?_, rfl, ?_, ?_⟩
    · intro r' hr'
      cases Option.some.inj hr'
      exact hwfnew
    · intro q hq
      exact hmono q hq
    · intro _
      refine ⟨p, rfl, ?_⟩
      show p ∈ Node.pathsOf (Node.updAt rv route (fun _ => bln))
      rw [hpathsnew]
      simp only [List.mem_append]
      exact Or.inl (Or.inr (blsucc hblst))
  · rw [if_neg hblst] at h
    cases h
    refine ⟨?_, rfl, ?_, ?_⟩
    · intro r' hr'
      cases Option.some.inj hr'
      exact hwfnew
    · intro q hq
      exact hmono q hq
    · intro hsucc
      exact absurd hsucc hblst

theorem FT_rmDir_wf {s : FT} {str : String}
    (hwfs : ∀ r, s.root = some r → Node.wf r = true)
    {st : FTStatus} {s' : FT} (h : FT_rmDir s str = (st, s')) :
    (∀ r', s'.root = some r' → Node.wf r' = true) ∧ s'.initialized = s.initialized := by
  unfold FT_rmDir at h
  rcases hfind : FT_findNode s str with st2 | res
  · rw [hfind] at h
    cases h
    exact ⟨hwfs, rfl⟩
  obtain ⟨nf, rt⟩ := res
  rw [hfind] at h
  dsimp only at h
  rcases hroot : s.root with _ | rv
  · rw [hroot] at h
    dsimp only at h
    cases h
    exact ⟨hwfs, rfl⟩
  rw [hroot] at h
  dsimp only at h
  have hwfr : Node.wf rv = true := hwfs rv hroot
  obtain ⟨_, p, r2, _, hr2, _, _, _, hroutenf⟩ := FT_findNode_char hwfs hfind
  rw [hroot] at hr2
  cases Option.some.inj hr2
  have hwfnewRoot : Node.wf (if rt.isEmpty then rv
      else Node.updAt rv rt.dropLast (fun par => par.detachChildKey (render nf.path))) = true := by
    split
    · exact hwfr
    next hne =>
      have hnonempty : rt ≠ [] := by
        intro hnil
        rw [hnil] at hne
        simp at hne
      obtain ⟨par, j, hpar, _⟩ := nodeAtRoute_split_last rt rv nf hnonempty hroutenf
      exact wf_updAt rt.dropLast rv par hwfr hpar _
        (wf_detach (nodeAtRoute_wf _ hwfr hpar) _) (detach_path par _)
  cases h
  refine ⟨?_, rfl⟩
  intro r' hr'
  dsimp only at hr'
  split at hr'
  · exact absurd hr' (by simp)
  · cases Option.some.inj hr'
    exact hwfnewRoot

/-- The reachability invariant: every state observable through the public
API has a well-formed root. -/
theorem FT_Reachable_wf : ∀ {s : FT}, FT_Reachable s →
    ∀ r, s.root = some r → Node.wf r = true := by
  intro s h
  induction h with
  | start => intro r hr; simp at hr
  | step s' op _ ih =>
    cases op with
    | initOp =>
      intro r hr
      rw [show FT_applyOp s' FTOp.initOp = (FT_init s').2 from rfl] at hr
      unfold FT_init at hr
      split at hr
      · exact ih r hr
      · simp at hr
    | destroyOp =>
      intro r hr
      rw [show FT_applyOp s' FTOp.destroyOp = (FT_destroy s').2 from rfl] at hr
      unfold FT_destroy at hr
      split at hr
      · exact ih r hr
      · split at hr <;> simp at hr
    | insertDirOp alloc path =>
      intro r hr
      exact (FT_insertDir_spec ih rfl).1 r hr
    | insertFileOp alloc path contents len =>
      intro r hr
      exact (FT_insertFile_spec ih rfl).1 r hr
    | rmOp path =>
      intro r hr
      exact (FT_rmDir_wf ih rfl).1 r hr

/-! ### Serialization lemmas -/

theorem foldl_strcat : ∀ (l : List Node) (acc : String),
    l.foldl (fun a n => a ++ render n.path ++ "\n") acc =
      (l.map (fun n => render n.path)).foldl (fun a x => a ++ x ++ "\n") acc := by
  intro l
  induction l with
  | nil => intro acc; rfl
  | cons c t ih =>
    intro acc
    rw [List.foldl_cons, List.map_cons, List.foldl_cons, ih]

theorem DT_toString_eq {s : FT} (hinit : s.initialized = true) :
    DT_toString s = some (linesJoin (serializeLines s.root)) := by
  unfold DT_toString linesJoin serializeLines
  rw [if_neg (by rw [hinit]; simp), foldl_strcat]

theorem DT_toString_uninit {s : FT} (hinit : s.initialized = false) :
    DT_toString s = none := by
  unfold DT_toString
  rw [if_pos (by rw [hinit]; rfl)]

theorem foldl_add_shift (g : Node → Nat) : ∀ (l : List Node) (x : Nat),
    l.foldl (fun a n => a + g n) x = x + l.foldl (fun a n => a + g n) 0 := by
  intro l
  induction l with
  | nil => intro x; simp
  | cons c t ih =>
    intro x
    rw [List.foldl_cons, List.foldl_cons, ih, ih (0 + g c)]
    omega

theorem strcat_fold_length : ∀ (l : List Node) (acc : String),
    (l.foldl (fun a n => a ++ render n.path ++ "\n") acc).length =
      acc.length + l.foldl (fun a n => a + ((render n.path).length + 1)) 0 := by
  intro l
  induction l with
  | nil => intro acc; simp
  | cons c t ih =>
    intro acc
    rw [List.foldl_cons, ih, List.foldl_cons,
      foldl_add_shift (fun n => (render n.path).length + 1) t
        (0 + ((render c.path).length + 1)),
      String.length_append, String.length_append,
      show ("\n" : String).length = 1 from rfl]
    omega

theorem DT_strlenTotal_eq (s : FT) :
    DT_strlenTotal s = (linesJoin (serializeLines s.root)).length + 1 := by
  unfold DT_strlenTotal linesJoin serializeLines
  rw [← foldl_strcat, strcat_fold_length, show ("" : String).length = 0 from rfl]
  omega

theorem serializeLines_nodup {root : Option Node}
    (hwf : ∀ r, root = some r → Node.wf r = true) :
    (serializeLines root).Nodup := by
  cases root with
  | none => exact List.nodup_nil
  | some r =>
    have h := Node.rendered_nodup (hwf r rfl)
    unfold Node.pathsOf at h
    rw [List.map_map] at h
    simpa [serializeLines, Function.comp] using h

theorem render_mem_serializeLines {s : FT} {p : List String} (hp : p ∈ FT.paths s) :
    render p ∈ serializeLines s.root := by
  unfold FT.paths at hp
  unfold serializeLines
  rw [List.mem_map] at hp ⊢
  obtain ⟨n, hn, hnp⟩ := hp
  exact ⟨n, hn, by rw [hnp]⟩

theorem serializeLines_count_one {s : FT}
    (hwf : ∀ r, s.root = some r → Node.wf r = true)
    {p : List String} (hp : p ∈ FT.paths s) :
    (serializeLines s.root).count (render p) = 1 :=
  List.count_eq_one_of_mem (serializeLines_nodup hwf) (render_mem_serializeLines hp)

/-! ### Runs of insertion calls -/

theorem runLog_spec : ∀ (ops : List InsOp) (s : FT),
    (∀ r, s.root = some r → Node.wf r = true) →
    (∀ r, (runLog s ops).1.root = some r → Node.wf r = true) ∧
    (runLog s ops).1.initialized = s.initialized ∧
    (∀ q ∈ FT.paths s, q ∈ FT.paths (runLog s ops).1) ∧
    ((∀ st ∈ (runLog s ops).2, st = .success) →
      ∀ op ∈ ops, ∃ p, Path_new (InsOp.path op) = .ok p ∧
        p ∈ FT.paths (runLog s ops).1) := by
  intro ops
  induction ops with
  | nil =>
    intro s hwf
    exact ⟨hwf, rfl, fun q hq => hq, fun _ op hop => absurd hop (by simp)⟩
  | cons op0 rest ih =>
    intro s hwf
    rcases h1 : applyIns s op0 with ⟨st1, s1⟩
    have hred : runLog s (op0 :: rest) = ((runLog s1 rest).1, st1 :: (runLog s1 rest).2) := by
      rw [show runLog s (op0 :: rest) =
        ((runLog (applyIns s op0).2 rest).1,
         (applyIns s op0).1 :: (runLog (applyIns s op0).2 rest).2) from rfl, h1]
    have hspec : (∀ r, s1.root = some r → Node.wf r = true) ∧
        s1.initialized = s.initialized ∧
        (∀ q ∈ FT.paths s, q ∈ FT.paths s1) ∧
        (st1 = .success → ∃ p, Path_new (InsOp.path op0) = .ok p ∧ p ∈ FT.paths s1) := by
      cases op0 with
      | dir pstr =>
        exact FT_insertDir_spec hwf
          (show FT_insertDir s (fun _ => true) pstr = (st1, s1) from h1)
      | file pstr contents len =>
        exact FT_insertFile_spec hwf
          (show FT_insertFile s (fun _ => true) pstr contents len = (st1, s1) from h1)
    obtain ⟨hw1, hi1, hm1, hs1⟩ := hspec
    obtain ⟨hw2, hi2, hm2, hs2⟩ := ih s1 hw1
    rw [hred]
    dsimp only
    refine ⟨hw2, by rw [hi2, hi1], fun q hq => hm2 q (hm1 q hq), ?_⟩
    intro hall op hop
    have hallrest : ∀ st ∈ (runLog s1 rest).2, st = .success := by
      intro st hst
      exact hall st (List.mem_cons_of_mem _ hst)
    rcases List.mem_cons.mp hop with hop0 | hoprest
    · subst hop0
      obtain ⟨p, hp, hmem⟩ := hs1 (hall st1 (List.mem_cons_self _ _))
      exact ⟨p, hp, hm2 p hmem⟩
    · exact hs2 hallrest op hoprest

/-! ### Shared-prefix lemma -/

theorem take_of_sharedPrefixDepth : ∀ (l q : List String),
    q.length ≤ sharedPrefixDepth l q → l.take q.length = q := by
  intro l
  induction l with
  | nil =>
    intro q hq
    cases q with
    | nil => rfl
    | cons b u =>
      rw [List.length_cons, show sharedPrefixDepth [] (b :: u) = 0 from rfl] at hq
      omega
  | cons a t ih =>
    intro q hq
    cases q with
    | nil => rfl
    | cons b u =>
      rw [show sharedPrefixDepth (a :: t) (b :: u) =
        (if a = b then sharedPrefixDepth t u + 1 else 0) from rfl] at hq
      by_cases hab : a = b
      · rw [if_pos hab] at hq
        subst hab
        rw [List.length_cons, List.take_succ_cons, ih u (by rw [List.length_cons] at hq; omega)]
      · rw [if_neg hab, List.length_cons] at hq
        omega

/-! ### Characterization of the boolean probes -/

theorem contains_aux {s : FT} (hroot : RootOk s) (str : String) (fl : Bool) :
    (∃ n rt, FT_findNode s str = .ok (n, rt) ∧ n.isFile = fl) ↔
      (s.initialized = true ∧ ∃ p, Path_new str = .ok p ∧ hasNodeAt s.root p fl) := by
  constructor
  · rintro ⟨n, rt, hfind, hfl⟩
    have hwfs : ∀ r, s.root = some r → Node.wf r = true := fun r hr => (hroot r hr).1
    obtain ⟨hinit, p, r, hparse, hr, hmem, hpath, _, _⟩ := FT_findNode_char hwfs hfind
    exact ⟨hinit, p, hparse, n, by rw [hr]; exact hmem, hpath, hfl⟩
  · rintro ⟨hinit, p, hparse, n, hmem, hpath, hfl⟩
    rcases hroot2 : s.root with _ | r
    · rw [hroot2] at hmem
      exact absurd hmem (by simp [DT_preOrderOpt])
    obtain ⟨hwf, hr1⟩ := hroot r hroot2
    rw [hroot2] at hmem
    obtain ⟨rt, hfind⟩ := FT_findNode_complete hroot2 hwf hr1 hinit hparse hmem hpath
    exact ⟨n, rt, hfind, hfl⟩

/-! ### Reachability of the concrete states -/

theorem reach_ftStart : FT_Reachable ftStart :=
  FT_Reachable.step ⟨false, none, 0⟩ FTOp.initOp FT_Reachable.start

theorem reach_stA : FT_Reachable stA :=
  FT_Reachable.step ftStart (FTOp.insertDirOp allocT "/a") reach_ftStart

theorem reach_stABF : FT_Reachable stABF :=
  FT_Reachable.step _ (FTOp.insertFileOp allocT "/a/f.txt" none 0)
    (FT_Reachable.step _ (FTOp.insertDirOp allocT "/a/b")
      (FT_Reachable.step _ (FTOp.insertDirOp allocT "/a") reach_ftStart))

theorem reach_stMix : FT_Reachable stMix :=
  FT_Reachable.step _ (FTOp.insertDirOp allocT "/p/b")
    (FT_Reachable.step _ (FTOp.insertFileOp allocT "/p/a.txt" none 0)
      (FT_Reachable.step _ (FTOp.insertDirOp allocT "/p") reach_ftStart))
/-! ## The claims -/

/-- C1 (amended): the sibling-ordering invariant that actually holds at
every externally observable instant is the one the code maintains: among
the children of any one parent the rendered pathnames are strictly
increasing under plain string comparison, with Directory and File children
interleaved in that single order; the spec's directories-before-files
priority is not maintained. -/
theorem claim_C1_sibling_order (s : FT) (hreach : FT_Reachable s) :
    ∀ r, s.root = some r → Node.allSorted r = true :=
  fun r hr => Node.wf_allSorted (FT_Reachable_wf hreach r hr)

/-- Witness for C1: the running three-insertion scenario reaches `stABF`,
whose root satisfies the amended ordering invariant. -/
theorem claim_C1_witness : FT_Reachable stABF ∧ stABF.root = some rootABF ∧
    Node.allSorted rootABF = true :=
  ⟨reach_stABF, by with_unfolding_all rfl,
   claim_C1_sibling_order stABF reach_stABF rootABF (by with_unfolding_all rfl)⟩

/-- Counterexample to C1 as stated: the reachable state `stMix` (insert
directory `/p`, file `/p/a.txt`, directory `/p/b`) has a File child ordered
before a Directory child, violating the spec's I4 pair ordering. -/
theorem claim_C1_cex : FT_Reachable stMix ∧ stMix.root = some rootMix ∧
    Node.specI4 rootMix = false :=
  ⟨reach_stMix, by with_unfolding_all rfl, by with_unfolding_all rfl⟩

/-- C9: every operation keeps each directory's children strictly sorted by
string comparison on the children's full rendered pathnames — the property
holds for every node of every reachable tree, and the comparison looks at
pathnames only, so a child's kind plays no role in its position. -/
theorem claim_C9_pathname_order (s : FT) (hreach : FT_Reachable s) :
    ∀ r, s.root = some r → ∀ m, m ∈ DT_preOrder r →
      keysSorted (m.children.map nodeKey) = true := by
  intro r hr m hm
  have hwfm := Node.wf_of_mem_preorder (FT_Reachable_wf hreach r hr) hm
  exact keysSorted_iff.mpr (Node.wf_iff.mp hwfm).2.2.2.1

/-- Witness for C9: in the reachable state `stMix` the root's children are
a File then a Directory — kinds interleaved — yet strictly sorted by
pathname. -/
theorem claim_C9_witness : FT_Reachable stMix ∧ stMix.root = some rootMix ∧
    rootMix.children.map Node.isFile = [true, false] ∧
    keysSorted (rootMix.children.map nodeKey) = true :=
  ⟨reach_stMix, by with_unfolding_all rfl, by with_unfolding_all rfl,
   claim_C9_pathname_order stMix reach_stMix rootMix (by with_unfolding_all rfl)
     rootMix (self_mem_preorder rootMix)⟩

/-- C10: removal performs no kind check on the resolved node: when
`FT_findNode` resolves the path to a File node, `FT_rmDir` succeeds, the
subtree freed is exactly that one node (`Node_free` counts 1, releasing the
node with its contents buffer), and the count decreases by exactly 1. -/
theorem claim_C10_rm_file (s : FT) (str : String) (nf : Node) (rt : List Nat)
    (hwfs : ∀ r, s.root = some r → Node.wf r = true)
    (hfind : FT_findNode s str = .ok (nf, rt))
    (hfile : nf.isFile = true) :
    (FT_rmDir s str).1 = .success ∧ Node_free nf = 1 ∧
    (FT_rmDir s str).2.count = s.count - 1 := by
  obtain ⟨_, p, r, _, hroot, _, _, _, _⟩ := FT_findNode_char hwfs hfind
  have hfree : Node_free nf = 1 := by
    cases nf with
    | mk q f c l ch =>
      simp only [Node.isFile_mk] at hfile
      subst hfile
      rfl
  have hkey : FT_rmDir s str = (.success, ⟨s.initialized,
      (if s.count - Node_free nf = 0 then none
       else some (if rt.isEmpty then r
         else Node.updAt r rt.dropLast (fun par => par.detachChildKey (render nf.path)))),
      s.count - Node_free nf⟩) := by
    unfold FT_rmDir
    rw [hfind]
    dsimp only
    rw [hroot]
  exact ⟨by rw [hkey], hfree, by rw [hkey, hfree]⟩

/-- Witness for C10: removing the file `/a/f.txt` from the scenario state
`stABF` succeeds and drops the count from 3 to 2. -/
theorem claim_C10_witness : FT_findNode stABF "/a/f.txt" = .ok (nfF, [1]) ∧
    nfF.isFile = true ∧ stABF.count = 3 ∧
    ((FT_rmDir stABF "/a/f.txt").1 = .success ∧ Node_free nfF = 1 ∧
     (FT_rmDir stABF "/a/f.txt").2.count = stABF.count - 1) := by
  refine ⟨by with_unfolding_all rfl, rfl, rfl, ?_⟩
  exact claim_C10_rm_file stABF "/a/f.txt" nfF [1]
    (fun r hr => by
      rw [show stABF.root = some rootABF from by with_unfolding_all rfl] at hr
      cases Option.some.inj hr
      with_unfolding_all rfl)
    (by with_unfolding_all rfl) rfl

/-- C5: the boolean probes are exact: on a state whose root is a
well-formed depth-1 tree, `FT_containsDir` returns true exactly when the
tree is initialized, the path string parses, and a Directory node with
exactly that path exists; `FT_containsFile` likewise for File nodes; in
every other case they return false rather than propagating an error. -/
theorem claim_C5_probes (s : FT) (str : String) (hroot : RootOk s) :
    (FT_containsDir s str = true ↔
      s.initialized = true ∧ ∃ p, Path_new str = .ok p ∧ hasNodeAt s.root p false) ∧
    (FT_containsFile s str = true ↔
      s.initialized = true ∧ ∃ p, Path_new str = .ok p ∧ hasNodeAt s.root p true) := by
  constructor
  · rw [← contains_aux hroot str false]
    unfold FT_containsDir
    constructor
    · intro h
      rcases hf : FT_findNode s str with st | nr
      · rw [hf] at h
        exact absurd h (by simp)
      · obtain ⟨n, rt⟩ := nr
        rw [hf] at h
        dsimp only at h
        exact ⟨n, rt, rfl, by rwa [Bool.not_eq_true'] at h⟩
    · rintro ⟨n, rt, hfind, hfl⟩
      rw [hfind]
      dsimp only
      rw [hfl]
      rfl
  · rw [← contains_aux hroot str true]
    unfold FT_containsFile
    constructor
    · intro h
      rcases hf : FT_findNode s str with st | nr
      · rw [hf] at h
        exact absurd h (by simp)
      · obtain ⟨n, rt⟩ := nr
        rw [hf] at h
        dsimp only at h
        exact ⟨n, rt, rfl, h⟩
    · rintro ⟨n, rt, hfind, hfl⟩
      rw [hfind]
      dsimp only
      rw [hfl]

/-- Witness for C5: the probes applied to the scenario state `stABF` and
the path `/a`. -/
theorem claim_C5_witness : RootOk stABF ∧
    ((FT_containsDir stABF "/a" = true ↔
       stABF.initialized = true ∧ ∃ p, Path_new "/a" = .ok p ∧ hasNodeAt stABF.root p false) ∧
     (FT_containsFile stABF "/a" = true ↔
       stABF.initialized = true ∧ ∃ p, Path_new "/a" = .ok p ∧ hasNodeAt stABF.root p true)) := by
  have hroot : RootOk stABF := by
    intro r hr
    rw [show stABF.root = some rootABF from by with_unfolding_all rfl] at hr
    cases Option.some.inj hr
    exact ⟨by with_unfolding_all rfl, by with_unfolding_all rfl⟩
  exact ⟨hroot, claim_C5_probes stABF "/a" hroot⟩

/-- C2 as stated is violated by the code (code bug): from the valid
one-directory state `stA` (which the checker accepts), the chain insertion
of `/a/b/c` whose level-3 allocation fails returns `MEMORY_ERROR` after
having linked `/a/b`, but `ulCount` is not updated, so the resulting state
fails `CheckerFT_isValid` (count no longer equals the number of reachable
nodes). -/
theorem claim_C2_partial_commit :
    FT_Reachable stA ∧
    CheckerFT_isValid stA.initialized stA.root stA.count = true ∧
    (FT_insertDir stA allocNo3 "/a/b/c").1 = .memoryError ∧
    CheckerFT_isValid (FT_insertDir stA allocNo3 "/a/b/c").2.initialized
      (FT_insertDir stA allocNo3 "/a/b/c").2.root
      (FT_insertDir stA allocNo3 "/a/b/c").2.count = false :=
  ⟨reach_stA, by with_unfolding_all rfl, by with_unfolding_all rfl,
   by with_unfolding_all rfl⟩

/-- C3 (amended): `remove_subtree` returns the SUCCESS status — not a
count: after building `/a`, `/a/b`, `/a/f.txt` (state `stABF`, count 3),
removing `/a` returns SUCCESS and leaves count 0 and root none. -/
theorem claim_C3_rm_status :
    stABF.count = 3 ∧
    FT_rmDir stABF "/a" = (.success, (⟨true, none, 0⟩ : FT)) :=
  ⟨rfl, by with_unfolding_all rfl⟩

/-- Counterexample to C3 as stated: removing the 3-node subtree `/a` from
`stABF` and removing the 1-node subtree `/x` from `stX` return the very
same result, so the returned value cannot be the count of nodes removed. -/
theorem claim_C3_cex :
    stABF.count = 3 ∧ stX.count = 1 ∧
    (FT_rmDir stABF "/a").1 = (FT_rmDir stX "/x").1 ∧
    (FT_rmDir stABF "/a").2.count = 0 ∧ (FT_rmDir stX "/x").2.count = 0 :=
  ⟨rfl, rfl, rfl, by with_unfolding_all rfl, by with_unfolding_all rfl⟩

/-- C8 as stated is violated by the code (code bug): on an empty
initialized tree, `FT_insertDir "/a/b"` succeeds but stores the deepest new
node as root (`oNRoot = oNCurr`), corrupting the state (the checker rejects
it); re-inserting the very same path then returns `CONFLICTING_PATH`, not
`ALREADY_IN_TREE`. -/
theorem claim_C8_duplicate :
    (FT_insertDir ftStart allocT "/a/b").1 = .success ∧
    (FT_insertDir s8 allocT "/a/b").1 = .conflictingPath ∧
    (FT_insertDir s8 allocT "/a/b").1 ≠ .alreadyInTree ∧
    CheckerFT_isValid s8.initialized s8.root s8.count = false :=
  ⟨by with_unfolding_all rfl, by with_unfolding_all rfl,
   fun h => FTStatus.noConfusion
     ((show FTStatus.conflictingPath = (FT_insertDir s8 allocT "/a/b").1 from
        by with_unfolding_all rfl).trans h),
   by with_unfolding_all rfl⟩

/-- C6 (amended): `FT_insertFile` fails `CONFLICTING_PATH` when the root is
none; for a depth-1 target on a depth-1-rooted tree it fails
`CONFLICTING_PATH` only when the path differs from the root's pathname —
when the depth-1 path equals the root's path it fails `ALREADY_IN_TREE`
instead.  In all these cases the state is unchanged. -/
theorem claim_C6_file_conflicts (s : FT) (alloc : Nat → Bool) (str : String)
    (contents : Option (List Nat)) (len : Nat) (p : List String)
    (hinit : s.initialized = true) (hparse : Path_new str = .ok p) :
    (s.root = none → FT_insertFile s alloc str contents len = (.conflictingPath, s)) ∧
    (∀ rv, s.root = some rv → rv.path.length = 1 → p.length = 1 →
      (render p = render rv.path →
        FT_insertFile s alloc str contents len = (.alreadyInTree, s)) ∧
      (render p ≠ render rv.path →
        FT_insertFile s alloc str contents len = (.conflictingPath, s))) := by
  constructor
  · intro hnone
    unfold FT_insertFile
    rw [if_neg (by rw [hinit]; simp), hparse]
    dsimp only
    rw [hnone]
  · intro rv hrv hr1 hp1
    have htake : p.take 1 = p := List.take_of_length_le (by omega)
    constructor
    · intro heq
      have htrav : FT_traversePath (some rv) p = .ok (some (rv, [])) := by
        rw [show FT_traversePath (some rv) p =
          (if render rv.path ≠ render (p.take 1) then .error .conflictingPath
           else
             match FT_goTraverse p (List.range' 2 (p.length - 1)) rv [] with
             | .ok res => .ok (some res)
             | .error st => .error st) from rfl,
          if_neg (show ¬(render rv.path ≠ render (p.take 1)) from
            fun hc => hc (by rw [htake]; exact heq.symm)),
          hp1]
        rfl
      unfold FT_insertFile
      rw [if_neg (by rw [hinit]; simp), hparse]
      dsimp only
      rw [hrv]
      dsimp only
      rw [htrav]
      dsimp only
      rw [if_pos (by rw [hr1, hp1, heq]; simp)]
    · intro hne
      have htrav : FT_traversePath (some rv) p = .error .conflictingPath := by
        rw [show FT_traversePath (some rv) p =
          (if render rv.path ≠ render (p.take 1) then .error .conflictingPath
           else
             match FT_goTraverse p (List.range' 2 (p.length - 1)) rv [] with
             | .ok res => .ok (some res)
             | .error st => .error st) from rfl,
          if_pos (show render rv.path ≠ render (p.take 1) from
            by rw [htake]; exact fun hc => hne hc.symm)]
      unfold FT_insertFile
      rw [if_neg (by rw [hinit]; simp), hparse]
      dsimp only
      rw [hrv]
      dsimp only
      rw [htrav]

/-- Witness for C6: on the empty initialized tree, inserting the file `/x`
fails `CONFLICTING_PATH`; on the tree whose root is the directory `/x`,
inserting the file `/x` fails `ALREADY_IN_TREE`. -/
theorem claim_C6_witness :
    (ftStart.root = none ∧
     FT_insertFile ftStart allocT "/x" none 0 = (.conflictingPath, ftStart)) ∧
    (stX.root = some rootX ∧ rootX.path.length = 1 ∧
     FT_insertFile stX allocT "/x" none 0 = (.alreadyInTree, stX)) := by
  refine ⟨⟨rfl, ?_⟩, ⟨by with_unfolding_all rfl, rfl, ?_⟩⟩
  · exact (claim_C6_file_conflicts ftStart allocT "/x" none 0 ["x"] rfl rfl).1 rfl
  · exact ((claim_C6_file_conflicts stX allocT "/x" none 0 ["x"]
      (by with_unfolding_all rfl) rfl).2
      rootX (by with_unfolding_all rfl) rfl rfl).1 (by with_unfolding_all rfl)

/-- Counterexample to C6 as stated: inserting the file `/x` when the
directory `/x` is the root — a depth-1 target — fails `ALREADY_IN_TREE`,
not `CONFLICTING_PATH` as the claim demands for every depth-1 path. -/
theorem claim_C6_cex :
    FT_insertFile stX allocT "/x" none 0 = (.alreadyInTree, stX) ∧
    FTStatus.alreadyInTree ≠ FTStatus.conflictingPath :=
  ⟨by with_unfolding_all rfl, fun h => FTStatus.noConfusion h⟩

/-- C7 (amended): whenever `Node_new` returns a failure status it returns a
null result and leaves the parent untouched — no partially constructed node
escapes; on success under a parent it links the new node into the parent's
children at the insertion index computed by `Node_hasChild` (pathname-only
binary search), preserving well-formedness: valid path, one-segment
extension, and children strictly sorted by rendered pathname with kinds
interleaved (the spec's directories-before-files half of I4 is not
established). -/
theorem claim_C7_node_new (allocOk : Bool) (p : List String) (parent : Option Node)
    (fl : Bool) (contents : Option (List Nat)) (len : Nat)
    (hp : pathOkB p = true) :
    ((Node_new allocOk p parent fl contents len).status ≠ .success →
      (Node_new allocOk p parent fl contents len).result = none ∧
      (Node_new allocOk p parent fl contents len).parentAfter = parent) ∧
    (∀ par, parent = some par →
      (Node_new allocOk p parent fl contents len).status = .success →
      ∃ nd, (Node_new allocOk p parent fl contents len).result = some nd ∧
        nd.path = p ∧ nd.isFile = fl ∧
        (Node_new allocOk p parent fl contents len).insIdx =
          lowerCountS (render p) (par.children.map nodeKey) ∧
        (Node_new allocOk p parent fl contents len).parentAfter =
          some (Node_addChild par nd
            (lowerCountS (render p) (par.children.map nodeKey))) ∧
        (Node.wf par = true →
          Node.wf (Node_addChild par nd
            (lowerCountS (render p) (par.children.map nodeKey))) = true)) := by
  cases allocOk with
  | false =>
    have hkey : Node_new false p parent fl contents len =
        ⟨.memoryError, none, parent, 0⟩ := rfl
    refine ⟨fun _ => ⟨by rw [hkey], by rw [hkey]⟩, fun par hpar hsucc => ?_⟩
    rw [hkey] at hsucc
    exact FTStatus.noConfusion hsucc
  | true =>
    cases parent with
    | none =>
      by_cases hl : p.length ≠ 1
      · have hkey : Node_new true p none fl contents len =
            ⟨.noSuchPath, none, none, 0⟩ := by
          rw [show Node_new true p none fl contents len =
            (if p.length ≠ 1 then (⟨.noSuchPath, none, none, 0⟩ : NodeNewResult)
             else ⟨.success,
               some (Node.mk p fl
                 (if fl then (if len > 0 && contents.isSome then contents else none) else none)
                 (if fl then len else 0) []), none, 0⟩) from rfl,
            if_pos hl]
        refine ⟨fun _ => ⟨by rw [hkey], by rw [hkey]⟩, fun par hpar _ => ?_⟩
        exact absurd hpar (by simp)
      · refine ⟨fun hne => absurd ?_ hne, fun par hpar _ => absurd hpar (by simp)⟩
        rw [show Node_new true p none fl contents len =
          (if p.length ≠ 1 then (⟨.noSuchPath, none, none, 0⟩ : NodeNewResult)
           else ⟨.success,
             some (Node.mk p fl
               (if fl then (if len > 0 && contents.isSome then contents else none) else none)
               (if fl then len else 0) []), none, 0⟩) from rfl,
          if_neg hl]
    | some par =>
      have hkey0 : Node_new true p (some par) fl contents len =
          (if sharedPrefixDepth p par.path < par.path.length then
             (⟨.conflictingPath, none, some par, 0⟩ : NodeNewResult)
           else if p.length ≠ par.path.length + 1 then
             ⟨.noSuchPath, none, some par, 0⟩
           else if par.isFile then
             ⟨.notADirectory, none, some par, 0⟩
           else if (Node_hasChild par p).1 then
             ⟨.alreadyInTree, none, some par, 0⟩
           else
             ⟨.success,
              some (Node.mk p fl
                (if fl then (if len > 0 && contents.isSome then contents else none) else none)
                (if fl then len else 0) []),
              some (Node_addChild par
                (Node.mk p fl
                  (if fl then (if len > 0 && contents.isSome then contents else none) else none)
                  (if fl then len else 0) [])
                (Node_hasChild par p).2),
              (Node_hasChild par p).2⟩) := rfl
      by_cases h1 : sharedPrefixDepth p par.path < par.path.length
      · rw [if_pos h1] at hkey0
        refine ⟨fun _ => ⟨by rw [hkey0], by rw [hkey0]⟩, fun par2 hpar2 hsucc => ?_⟩
        rw [hkey0] at hsucc
        exact FTStatus.noConfusion hsucc
      rw [if_neg h1] at hkey0
      by_cases h2 : p.length ≠ par.path.length + 1
      · rw [if_pos h2] at hkey0
        refine ⟨fun _ => ⟨by rw [hkey0], by rw [hkey0]⟩, fun par2 hpar2 hsucc => ?_⟩
        rw [hkey0] at hsucc
        exact FTStatus.noConfusion hsucc
      rw [if_neg h2] at hkey0
      by_cases h3 : par.isFile = true
      · rw [if_pos h3] at hkey0
        refine ⟨fun _ => ⟨by rw [hkey0], by rw [hkey0]⟩, fun par2 hpar2 hsucc => ?_⟩
        rw [hkey0] at hsucc
        exact FTStatus.noConfusion hsucc
      have hpf : par.isFile = false := by
        cases hb : par.isFile with
        | true => exact absurd hb h3
        | false => rfl
      rw [if_neg h3] at hkey0
      have hhc : Node_hasChild par p =
          (hasKeyS (render p) (par.children.map nodeKey),
           lowerCountS (render p) (par.children.map nodeKey)) := by
        unfold Node_hasChild
        rw [hpf]
        rfl
      by_cases h4 : (Node_hasChild par p).1 = true
      · rw [if_pos h4] at hkey0
        refine ⟨fun _ => ⟨by rw [hkey0], by rw [hkey0]⟩, fun par2 hpar2 hsucc => ?_⟩
        rw [hkey0] at hsucc
        exact FTStatus.noConfusion hsucc
      rw [if_neg h4] at hkey0
      refine ⟨fun hne => absurd (by rw [hkey0]) hne, fun par2 hpar2 _ => ?_⟩
      cases Option.some.inj hpar2
      refine ⟨Node.mk p fl
          (if fl then (if len > 0 && contents.isSome then contents else none) else none)
          (if fl then len else 0) [],
        by rw [hkey0], rfl, rfl, ?_, ?_, ?_⟩
      · rw [hkey0]
        dsimp only
        rw [hhc]
      · rw [hkey0]
        dsimp only
        rw [hhc]
      · intro hwf
        have htake : p.take par.path.length = par.path :=
          take_of_sharedPrefixDepth p par.path (Nat.not_lt.mp h1)
        have hlen : p.length = par.path.length + 1 := by omega
        have hnew : hasKeyS (render p) (par.children.map nodeKey) = false := by
          rw [hhc] at h4
          dsimp only at h4
          cases hb : hasKeyS (render p) (par.children.map nodeKey) with
          | true => exact absurd hb h4
          | false => rfl
        exact wf_addChild hwf hpf (wf_leaf hp fl _ _)
          (by rw [Node.path_mk]; exact htake)
          (by rw [Node.path_mk]; exact hlen)
          (by rw [Node.path_mk]; exact hnew)

/-- Witness for C7: linking the file `/p/a.txt` under the directory `/p`
that already holds the directory child `/p/b`. -/
theorem claim_C7_witness : pathOkB ["p", "a.txt"] = true ∧
    (∃ nd, r7.result = some nd ∧ nd.path = ["p", "a.txt"] ∧ nd.isFile = true ∧
      r7.insIdx = lowerCountS (render ["p", "a.txt"]) (parC7.children.map nodeKey) ∧
      r7.parentAfter = some (Node_addChild parC7 nd
        (lowerCountS (render ["p", "a.txt"]) (parC7.children.map nodeKey))) ∧
      (Node.wf parC7 = true → Node.wf (Node_addChild parC7 nd
        (lowerCountS (render ["p", "a.txt"]) (parC7.children.map nodeKey))) = true)) :=
  ⟨rfl, (claim_C7_node_new true ["p", "a.txt"] (some parC7) true none 0 rfl).2
    parC7 rfl (by with_unfolding_all rfl)⟩

/-- Counterexample to C7 as stated: the successful `Node_new` of `r7` links
the File child `/p/a.txt` before the Directory child `/p/b`, so the
resulting parent violates the spec's I4 (directories before files). -/
theorem claim_C7_cex : r7.status = .success ∧ r7.parentAfter = some paC7 ∧
    Node.specI4 paC7 = false :=
  ⟨by with_unfolding_all rfl, by with_unfolding_all rfl, by with_unfolding_all rfl⟩

/-- C4 (amended): after any sequence of successful insertion calls,
`serialize` returns the newline-joined pre-order path list in which every
inserted path appears exactly once, children strictly sorted by pathname
(kinds interleaved — not directories-then-files); it returns none when
uninitialized; and the bytes allocated (`totalStrlen`) are exactly the sum
over the nodes of path length plus one, i.e. the output's length plus the
terminator byte. -/
theorem claim_C4_round_trip (s : FT) (ops : List InsOp)
    (hwfs : ∀ r, s.root = some r → Node.wf r = true)
    (hinit : s.initialized = true)
    (hall : ∀ st ∈ (runLog s ops).2, st = .success) :
    DT_toString (runLog s ops).1 =
      some (linesJoin (serializeLines (runLog s ops).1.root)) ∧
    (∀ op ∈ ops, ∃ p, Path_new (InsOp.path op) = .ok p ∧
      (serializeLines (runLog s ops).1.root).count (render p) = 1) ∧
    (∀ r, (runLog s ops).1.root = some r → Node.allSorted r = true) ∧
    DT_strlenTotal (runLog s ops).1 =
      (linesJoin (serializeLines (runLog s ops).1.root)).length + 1 ∧
    (∀ t : FT, t.initialized = false → DT_toString t = none) := by
  obtain ⟨hw, hi, _, hs⟩ := runLog_spec ops s hwfs
  have hinit2 : (runLog s ops).1.initialized = true := by rw [hi, hinit]
  refine ⟨DT_toString_eq hinit2, ?_, ?_, DT_strlenTotal_eq _,
    fun t ht => DT_toString_uninit ht⟩
  · intro op hop
    obtain ⟨p, hp, hmem⟩ := hs hall op hop
    exact ⟨p, hp, serializeLines_count_one hw hmem⟩
  · intro r hr
    exact Node.wf_allSorted (hw r hr)

/-- Witness for C4: the three-insertion scenario, whose statuses are all
SUCCESS. -/
theorem claim_C4_witness :
    (∀ st ∈ (runLog ftStart opsW).2, st = .success) ∧
    (DT_toString (runLog ftStart opsW).1 =
       some (linesJoin (serializeLines (runLog ftStart opsW).1.root)) ∧
     (∀ op ∈ opsW, ∃ p, Path_new (InsOp.path op) = .ok p ∧
       (serializeLines (runLog ftStart opsW).1.root).count (render p) = 1) ∧
     (∀ r, (runLog ftStart opsW).1.root = some r → Node.allSorted r = true) ∧
     DT_strlenTotal (runLog ftStart opsW).1 =
       (linesJoin (serializeLines (runLog ftStart opsW).1.root)).length + 1 ∧
     (∀ t : FT, t.initialized = false → DT_toString t = none)) := by
  have hall : ∀ st ∈ (runLog ftStart opsW).2, st = .success := by
    intro st hst
    rw [show (runLog ftStart opsW).2 =
      [FTStatus.success, FTStatus.success, FTStatus.success] from
        by with_unfolding_all rfl] at hst
    simp only [List.mem_cons, List.not_mem_nil, or_false] at hst
    rcases hst with h | h | h <;> exact h
  exact ⟨hall, claim_C4_round_trip ftStart opsW
    (fun r hr => Option.noConfusion (show (none : Option Node) = some r from hr))
    rfl hall⟩

/-- Counterexample to C4 as stated: a successful insertion sequence whose
serialized output lists the File `/p/a.txt` before its Directory sibling
`/p/b` — the output is not in directories-then-files order. -/
theorem claim_C4_cex :
    (runLog ftStart opsMix).2 = [.success, .success, .success] ∧
    (runLog ftStart opsMix).1.root = some rootMix ∧
    serializeLines (runLog ftStart opsMix).1.root = ["/p", "/p/a.txt", "/p/b"] ∧
    Node.specI4 rootMix = false :=
  ⟨by with_unfolding_all rfl, by with_unfolding_all rfl, by with_unfolding_all rfl,
   by with_unfolding_all rfl⟩
